import Mathlib

/-!
Skeletal-animation keyframe engine.

A shallow embedding of `src/src/SkeletonAnimation.cc` (classes `NodeAnimation`
and `SkeletonAnimation`) and theorems about it.

Modelling conventions.

* `double` values are rationals: comparisons, maxima and assignments are exact,
  arithmetic is the exact arithmetic that the floating-point operations round;
  NaN and infinities are outside the model.
* Where the rounding decides a property, a second definition of the same
  method (`ScaleWith`, `FrameAtWith`) takes a rounding operator `r` and applies
  it to the result of every arithmetic operation; `roundDouble` is the rounding
  of IEEE binary64, and with `r = id` the definition is the exact one.
* `std::map<double, math::Matrix4d>` is an association list kept in strictly
  ascending key order; an iterator is an index into that list (`begin()` is
  index `0`, `end()` is the length of the list).
* Dereferencing `end()` (or `rbegin()` of an empty map) is undefined behaviour
  in C++; the model reports it as a distinguished result instead of a value.
* The `while` loop of `FrameAt` is run with a fuel bound; running out of fuel
  is reported as a distinguished result.
-/

/-! ## The ignition-math collaborator types -/

/-- Three-component vector `math::Vector3d`. -/
structure Vector3d where
  X : ℚ
  Y : ℚ
  Z : ℚ
deriving DecidableEq

/-- Vector times scalar, `Vector3d::operator*(double)`. -/
def Vector3d.mul (v : Vector3d) (s : ℚ) : Vector3d :=
  ⟨v.X * s, v.Y * s, v.Z * s⟩

/-- The 4x4 matrix `math::Matrix4d`, entry `mij` is row `i`, column `j`. -/
structure Matrix4d where
  m00 : ℚ
  m01 : ℚ
  m02 : ℚ
  m03 : ℚ
  m10 : ℚ
  m11 : ℚ
  m12 : ℚ
  m13 : ℚ
  m20 : ℚ
  m21 : ℚ
  m22 : ℚ
  m23 : ℚ
  m30 : ℚ
  m31 : ℚ
  m32 : ℚ
  m33 : ℚ
deriving DecidableEq

/-- The default constructor `math::Matrix4d()`: all sixteen entries zero. -/
def Matrix4d.Zero : Matrix4d :=
  ⟨0, 0, 0, 0, 0, 0, 0, 0, 0, 0, 0, 0, 0, 0, 0, 0⟩

/-- The constant `math::Matrix4d::Identity`. -/
def Matrix4d.Identity : Matrix4d :=
  ⟨1, 0, 0, 0, 0, 1, 0, 0, 0, 0, 1, 0, 0, 0, 0, 1⟩

/-- The accessor `Matrix4d::Translation()`: the entries (0,3), (1,3), (2,3). -/
def Matrix4d.Translation (m : Matrix4d) : Vector3d :=
  ⟨m.m03, m.m13, m.m23⟩

/-- The setter `Matrix4d::Translate(v)`: overwrites the entries (0,3), (1,3),
(2,3) with the components of `v` and leaves the other entries alone. -/
def Matrix4d.Translate (m : Matrix4d) (v : Vector3d) : Matrix4d :=
  { m with m03 := v.X, m13 := v.Y, m23 := v.Z }

/-- Modelled from the spec: the pieces of the ignition-math library that the
animation code calls and that are not part of this repository.  `epsilon` is
the tolerance constant of the epsilon-tolerant equality `math::equal` (a
nonnegative number, its value is left open), and
`slerpMatrix t prev next` stands for the rotation-only matrix
`Matrix4d(Quaterniond::Slerp(t, prev.Rotation(), next.Rotation(), true))`. -/
structure MathLib where
  epsilon : ℚ
  epsilon_nonneg : 0 ≤ epsilon
  slerpMatrix : ℚ → Matrix4d → Matrix4d → Matrix4d

/-- The absolute value `std::abs` on doubles. -/
def fabs (x : ℚ) : ℚ := if x < 0 then -x else x

/-- Modelled from the spec: the epsilon-tolerant equality `math::equal(a, b)`,
true when the two values differ by at most the tolerance
(`std::abs(a - b) <= epsilon`). -/
def MathLib.equal (M : MathLib) (a b : ℚ) : Bool :=
  decide (fabs (a - b) ≤ M.epsilon)

/-- The power `2^k` for an integer exponent. -/
def pow2 (k : Int) : ℚ :=
  if 0 ≤ k then ((2 ^ k.toNat : Nat) : ℚ) else 1 / ((2 ^ (-k).toNat : Nat) : ℚ)

/-- The number of binary digits of `n` (0 for 0), by halving at most `fuel`
times. -/
def bitLength : Nat → Nat → Nat
  | 0, _ => 0
  | fuel + 1, n => if n = 0 then 0 else bitLength fuel (n / 2) + 1

/-- The binary exponent of a positive rational `a`: the integer `e` with
`2^e ≤ a < 2^(e+1)`. -/
def floorLog2 (a : ℚ) : Int :=
  let e0 : Int :=
    (bitLength a.num.natAbs a.num.natAbs : Int) - (bitLength a.den a.den : Int)
  if a < pow2 e0 then e0 - 1 else e0

/-- The double that an exact result `q` is rounded to by an IEEE binary64
operation in the default mode: 53 significant bits, round to nearest, ties to
the even significand.  Overflow and the subnormal range are not modelled. -/
def roundDouble (q : ℚ) : ℚ :=
  if q = 0 then 0
  else
    let a := fabs q
    let e := floorLog2 a
    let scaled := a * pow2 (52 - e)
    let fl : Int := scaled.num / (scaled.den : Int)
    let rem := scaled - (fl : ℚ)
    let n : Int :=
      if rem < 1 / 2 then fl
      else if 1 / 2 < rem then fl + 1
      else if fl % 2 = 0 then fl else fl + 1
    let v := (n : ℚ) * pow2 (e - 52)
    if q < 0 then -v else v

/-- Vector times scalar, `Vector3d::operator*(double)`, each of the three
products rounded by `r`. -/
def Vector3d.mulWith (r : ℚ → ℚ) (v : Vector3d) (s : ℚ) : Vector3d :=
  ⟨r (v.X * s), r (v.Y * s), r (v.Z * s)⟩

/-! ## The keyframe container `std::map<double, math::Matrix4d>` -/

/-- The assignment `keyFrames[k] = v`: inserts the pair at its place in the
ascending key order, or overwrites the value when the key is present. -/
def mapAssign (k : ℚ) (v : Matrix4d) : List (ℚ × Matrix4d) → List (ℚ × Matrix4d)
  | [] => [(k, v)]
  | kv :: rest =>
    if k < kv.1 then (k, v) :: kv :: rest
    else if k = kv.1 then (k, v) :: rest
    else kv :: mapAssign k v rest

/-- The lookup `keyFrames.find(k)`: the value stored at key `k`, if any. -/
def mapFind (k : ℚ) : List (ℚ × Matrix4d) → Option Matrix4d
  | [] => none
  | kv :: rest => if kv.1 = k then some kv.2 else mapFind k rest

/-- The search `keyFrames.upper_bound(time)`: the position of the first entry
whose key is strictly greater than `time`; the length of the list (that is,
`end()`) when there is none. -/
def upper_bound (time : ℚ) : List (ℚ × Matrix4d) → Nat
  | [] => 0
  | kv :: rest => if time < kv.1 then 0 else upper_bound time rest + 1

/-! ## NodeAnimation -/

/-- The private data of a `NodeAnimation`: name, key frames and length. -/
structure NodeAnimation where
  name : String
  length : ℚ
  keyFrames : List (ℚ × Matrix4d)
deriving DecidableEq

namespace NodeAnimation

/-- The constructor `NodeAnimation::NodeAnimation(_name)`. -/
def new (_name : String) : NodeAnimation :=
  { name := _name, length := 0, keyFrames := [] }

/-- The method `NodeAnimation::SetName`. -/
def SetName (na : NodeAnimation) (_name : String) : NodeAnimation :=
  { na with name := _name }

/-- The method `NodeAnimation::Name`. -/
def Name (na : NodeAnimation) : String := na.name

/-- The method `NodeAnimation::AddKeyFrame(_time, _trans)`. -/
def AddKeyFrame (na : NodeAnimation) (_time : ℚ) (_trans : Matrix4d) : NodeAnimation :=
  { na with
    length := if _time > na.length then _time else na.length
    keyFrames := mapAssign _time _trans na.keyFrames }

/-- The method `NodeAnimation::FrameCount`: the size of the key frame map.
(The narrowing of `size()` to `unsigned int` is not modelled: stores of 2^32
or more key frames are outside the model.) -/
def FrameCount (na : NodeAnimation) : Nat := na.keyFrames.length

/-- The method `NodeAnimation::Length`. -/
def Length (na : NodeAnimation) : ℚ := na.length

/-- What a call of `KeyFrame` leaves behind: the values of the two
out-parameters, whether the "Invalid key frame index" message was written to
the error console, and the object after the call. -/
structure KeyFrameResult where
  time : ℚ
  trans : Matrix4d
  reported : Bool
  after : NodeAnimation

/-- The method `NodeAnimation::KeyFrame(_i, _time, _trans)` with out-parameters.
`_trans` is the value the caller's matrix holds on entry (the out-of-range
branch does not assign it); both branches assign `_time`. -/
def KeyFrame (na : NodeAnimation) (_i : Nat) (_trans : Matrix4d) : KeyFrameResult :=
  if _i ≥ na.keyFrames.length then
    { time := -1, trans := _trans, reported := true, after := na }
  else
    match na.keyFrames[_i]? with
    | some kv => { time := kv.1, trans := kv.2, reported := false, after := na }
    | none => { time := -1, trans := _trans, reported := true, after := na }

/-- The overload `NodeAnimation::KeyFrame(_i)` returning a pair: the matrix
starts as the identity and is handed to the three-argument overload. -/
def KeyFramePair (na : NodeAnimation) (_i : Nat) : KeyFrameResult :=
  na.KeyFrame _i Matrix4d.Identity

/-- The outcome of a `FrameAt` call. -/
inductive FrameResult where
  /-- a transform was returned on one of the regular paths -/
  | ok (m : Matrix4d)
  /-- "Invalid time range" was reported and the matrix `m` was returned -/
  | invalidTimeRange (m : Matrix4d)
  /-- an `end()` iterator (or `rbegin()` of an empty map) was dereferenced -/
  | pastTheEnd
  /-- the wrap-around loop was still running when the fuel ran out -/
  | noReturn
deriving DecidableEq

/-- The loop `while (time > length) time = time - length;` with a bound on the
number of iterations. -/
def wrapTime (length : ℚ) : Nat → ℚ → Option ℚ
  | 0, time => if time > length then none else some time
  | fuel + 1, time =>
    if time > length then wrapTime length fuel (time - length) else some time

/-- The first part of `FrameAt` (lines 121-133): the query time after wrapping
(loop) or clamping (no loop). -/
def adjustTime (fuel : Nat) (na : NodeAnimation) (_time : ℚ) (_loop : Bool) : Option ℚ :=
  if _time > na.length then
    if _loop then wrapTime na.length fuel _time
    else some na.length
  else some _time

/-- The second part of `FrameAt` (lines 135-176), at the adjusted time. -/
def frameAtAdjusted (M : MathLib) (na : NodeAnimation) (time : ℚ) : FrameResult :=
  if M.equal time na.length then
    match na.keyFrames.getLast? with
    | some kv => .ok kv.2
    | none => .pastTheEnd
  else
    let it1 := upper_bound time na.keyFrames
    match na.keyFrames[it1]? with
    | none => .pastTheEnd
    | some kvA =>
      if it1 = 0 ∨ M.equal kvA.1 time then .ok kvA.2
      else
        -- it2 = it1--
        let it2 := it1
        let it1 := it1 - 1
        match na.keyFrames[it1]?, na.keyFrames[it2]? with
        | some kvPrev, some kvNext =>
          if it1 = 0 ∨ M.equal kvPrev.1 time then .ok kvPrev.2
          else
            let nextKey := kvNext.1
            let nextTrans := kvNext.2
            let prevKey := kvPrev.1
            let prevTrans := kvNext.2
            let t := (time - prevKey) / (nextKey - prevKey)
            if t ≥ 0 ∧ t ≤ 1 then .invalidTimeRange Matrix4d.Zero
            else
              let nextPos := nextTrans.Translation
              let prevPos := prevTrans.Translation
              let pos : Vector3d :=
                ⟨prevPos.X + ((nextPos.X - prevPos.X) * t),
                 prevPos.Y + ((nextPos.Y - prevPos.Y) * t),
                 prevPos.Z + ((nextPos.Z - prevPos.Z) * t)⟩
              let trans := M.slerpMatrix t prevTrans nextTrans
              .ok (trans.Translate pos)
        | _, _ => .pastTheEnd

/-- The method `NodeAnimation::FrameAt(_time, _loop)`. -/
def FrameAt (M : MathLib) (fuel : Nat) (na : NodeAnimation) (_time : ℚ) (_loop : Bool) :
    FrameResult :=
  match adjustTime fuel na _time _loop with
  | none => .noReturn
  | some time => frameAtAdjusted M na time

/-- The method `NodeAnimation::Scale(_scale)`: every stored matrix gets its
translation replaced by that translation times `_scale`. -/
def Scale (na : NodeAnimation) (_scale : ℚ) : NodeAnimation :=
  { na with
    keyFrames := na.keyFrames.map
      (fun kv => (kv.1, kv.2.Translate (kv.2.Translation.mul _scale))) }

/-- The scan `while (it1->second.Translation().X() < _x) ++it1;` of `TimeAtX`
starting at `begin()`: the position where it stops, or `none` when it steps
onto `end()` and reads it. -/
def scanX (_x : ℚ) : List (ℚ × Matrix4d) → Option Nat
  | [] => none
  | kv :: rest =>
    if kv.2.Translation.X < _x then (scanX _x rest).map (· + 1) else some 0

/-- The method `NodeAnimation::TimeAtX(_x)`; `none` when the scan reads past the
last key frame. -/
def TimeAtX (M : MathLib) (na : NodeAnimation) (_x : ℚ) : Option ℚ :=
  match scanX _x na.keyFrames with
  | none => none
  | some it1 =>
    match na.keyFrames[it1]? with
    | none => none
    | some kvA =>
      if it1 = 0 ∨ M.equal kvA.2.Translation.X _x then some kvA.1
      else
        -- it2 = it1--
        let it2 := it1
        let it1 := it1 - 1
        match na.keyFrames[it1]?, na.keyFrames[it2]? with
        | some kv1, some kv2 =>
          let x1 := kv1.2.Translation.X
          let x2 := kv2.2.Translation.X
          let t1 := kv1.1
          let t2 := kv2.1
          some (t1 + ((t2 - t1) * (_x - x1) / (x2 - x1)))
        | _, _ => none

/-- The objects a program can hold: built by the constructor and changed only
through the mutating methods.  (The pose overload of `AddKeyFrame` builds a
matrix and calls the matrix overload, so it is covered by `addKeyFrame`.) -/
inductive Reachable : NodeAnimation → Prop
  | new (_name : String) : Reachable (NodeAnimation.new _name)
  | setName {na : NodeAnimation} (_name : String) :
      Reachable na → Reachable (na.SetName _name)
  | addKeyFrame {na : NodeAnimation} (_time : ℚ) (_trans : Matrix4d) :
      Reachable na → Reachable (na.AddKeyFrame _time _trans)
  | scale {na : NodeAnimation} (_scale : ℚ) :
      Reachable na → Reachable (na.Scale _scale)

/-- A sequence of `AddKeyFrame(time, transform)` calls, in the order given. -/
def addKeyFrames (na : NodeAnimation) (calls : List (ℚ × Matrix4d)) : NodeAnimation :=
  calls.foldl (fun acc c => acc.AddKeyFrame c.1 c.2) na

/-- The method `NodeAnimation::Scale(_scale)` with the rounding of the double
products made explicit. -/
def ScaleWith (r : ℚ → ℚ) (na : NodeAnimation) (_scale : ℚ) : NodeAnimation :=
  { na with
    keyFrames := na.keyFrames.map
      (fun kv => (kv.1, kv.2.Translate (kv.2.Translation.mulWith r _scale))) }

/-- The loop `while (time > length) time = time - length;` with a bound on the
number of iterations, each difference rounded by `r`. -/
def wrapTimeWith (r : ℚ → ℚ) (length : ℚ) : Nat → ℚ → Option ℚ
  | 0, time => if time > length then none else some time
  | fuel + 1, time =>
    if time > length then wrapTimeWith r length fuel (r (time - length)) else some time

/-- The first part of `FrameAt` (lines 121-133) with rounded differences. -/
def adjustTimeWith (r : ℚ → ℚ) (fuel : Nat) (na : NodeAnimation) (_time : ℚ)
    (_loop : Bool) : Option ℚ :=
  if _time > na.length then
    if _loop then wrapTimeWith r na.length fuel _time
    else some na.length
  else some _time

/-- The second part of `FrameAt` (lines 135-176), at the adjusted time, with
every arithmetic result rounded by `r`. -/
def frameAtAdjustedWith (r : ℚ → ℚ) (M : MathLib) (na : NodeAnimation) (time : ℚ) :
    FrameResult :=
  if M.equal time na.length then
    match na.keyFrames.getLast? with
    | some kv => .ok kv.2
    | none => .pastTheEnd
  else
    let it1 := upper_bound time na.keyFrames
    match na.keyFrames[it1]? with
    | none => .pastTheEnd
    | some kvA =>
      if it1 = 0 ∨ M.equal kvA.1 time then .ok kvA.2
      else
        -- it2 = it1--
        let it2 := it1
        let it1 := it1 - 1
        match na.keyFrames[it1]?, na.keyFrames[it2]? with
        | some kvPrev, some kvNext =>
          if it1 = 0 ∨ M.equal kvPrev.1 time then .ok kvPrev.2
          else
            let nextKey := kvNext.1
            let nextTrans := kvNext.2
            let prevKey := kvPrev.1
            let prevTrans := kvNext.2
            let t := r (r (time - prevKey) / r (nextKey - prevKey))
            if t ≥ 0 ∧ t ≤ 1 then .invalidTimeRange Matrix4d.Zero
            else
              let nextPos := nextTrans.Translation
              let prevPos := prevTrans.Translation
              let pos : Vector3d :=
                ⟨r (prevPos.X + r (r (nextPos.X - prevPos.X) * t)),
                 r (prevPos.Y + r (r (nextPos.Y - prevPos.Y) * t)),
                 r (prevPos.Z + r (r (nextPos.Z - prevPos.Z) * t))⟩
              let trans := M.slerpMatrix t prevTrans nextTrans
              .ok (trans.Translate pos)
        | _, _ => .pastTheEnd

/-- The method `NodeAnimation::FrameAt(_time, _loop)` with the rounding of the
double arithmetic made explicit. -/
def FrameAtWith (r : ℚ → ℚ) (M : MathLib) (fuel : Nat) (na : NodeAnimation) (_time : ℚ)
    (_loop : Bool) : FrameResult :=
  match adjustTimeWith r fuel na _time _loop with
  | none => .noReturn
  | some time => frameAtAdjustedWith r M na time

end NodeAnimation

/-! ## The node container `std::map<std::string, NodeAnimation*>` -/

/-- The assignment `m[k] = v` on a map with string keys: inserts the pair at its
place in the ascending key order, or overwrites the value when the key is
present. -/
def strAssign {β : Type} (k : String) (v : β) : List (String × β) → List (String × β)
  | [] => [(k, v)]
  | kv :: rest =>
    if k < kv.1 then (k, v) :: kv :: rest
    else if k = kv.1 then (k, v) :: rest
    else kv :: strAssign k v rest

/-- The lookup `m.find(k)` on a map with string keys. -/
def strFind {β : Type} (k : String) : List (String × β) → Option β
  | [] => none
  | kv :: rest => if kv.1 = k then some kv.2 else strFind k rest

/-- The read access `m[k]` on a map of pointers: the stored pointer, and the map
afterwards; an absent key is first inserted with a null pointer (`none`). -/
def strIndex (k : String) (l : List (String × Option NodeAnimation)) :
    Option NodeAnimation × List (String × Option NodeAnimation) :=
  match strFind k l with
  | some v => (v, l)
  | none => (none, strAssign k none l)

/-! ## SkeletonAnimation -/

/-- The private data of a `SkeletonAnimation`: name, length and the node
animations; an entry of the map is a pointer, `none` is the null pointer. -/
structure SkeletonAnimation where
  name : String
  length : ℚ
  animations : List (String × Option NodeAnimation)
deriving DecidableEq

/-- The outcome of a pose query. -/
inductive PoseResult where
  /-- the mapping from node name to transform was returned -/
  | ok (pose : List (String × Matrix4d))
  /-- an `end()` iterator or a null pointer was dereferenced -/
  | pastTheEnd
  /-- a loop was still running when the fuel ran out -/
  | noReturn
deriving DecidableEq

/-- What a call of `NodePoseAt` leaves behind: the outcome and the object after
the call. -/
structure NodePoseResult where
  result : NodeAnimation.FrameResult
  after : SkeletonAnimation
deriving DecidableEq

namespace SkeletonAnimation

/-- The constructor `SkeletonAnimation::SkeletonAnimation(_name)`.  The
constructor body assigns the name only.
Modelled from the spec: the initial value of `length` is fixed by the
declaration of `SkeletonAnimationPrivate`, which is not among the sources; a
new clip has length 0 and no nodes. -/
def new (_name : String) : SkeletonAnimation :=
  { name := _name, length := 0, animations := [] }

/-- The method `SkeletonAnimation::SetName`. -/
def SetName (sa : SkeletonAnimation) (_name : String) : SkeletonAnimation :=
  { sa with name := _name }

/-- The method `SkeletonAnimation::NodeCount`. -/
def NodeCount (sa : SkeletonAnimation) : Nat := sa.animations.length

/-- The method `SkeletonAnimation::HasNode`. -/
def HasNode (sa : SkeletonAnimation) (_node : String) : Bool :=
  (strFind _node sa.animations).isSome

/-- The method `SkeletonAnimation::AddKeyFrame(_node, _time, _mat)`; `none` when
the pointer stored for `_node` is null and gets dereferenced.  (The pose
overload differs only in calling the pose overload of the node, which builds a
matrix and calls the matrix overload.) -/
def AddKeyFrame (sa : SkeletonAnimation) (_node : String) (_time : ℚ) (_mat : Matrix4d) :
    Option SkeletonAnimation :=
  let animations1 :=
    if (strFind _node sa.animations).isNone then
      strAssign _node (some (NodeAnimation.new _node)) sa.animations
    else sa.animations
  let length1 := if _time > sa.length then _time else sa.length
  match strIndex _node animations1 with
  | (some na, animations2) =>
    some { sa with
      length := length1
      animations := strAssign _node (some (na.AddKeyFrame _time _mat)) animations2 }
  | (none, _) => none

/-- The method `SkeletonAnimation::NodePoseAt(_node, _time, _loop)`: `mat` starts
as the default matrix; the test `if (this->data->animations[_node])` reads the
map with `operator[]` (the second `operator[]`, in the branch, finds the entry
the first one found). -/
def NodePoseAt (M : MathLib) (fuel : Nat) (sa : SkeletonAnimation) (_node : String)
    (_time : ℚ) (_loop : Bool) : NodePoseResult :=
  match strIndex _node sa.animations with
  | (some na, animations1) =>
    { result := na.FrameAt M fuel _time _loop, after := { sa with animations := animations1 } }
  | (none, animations1) =>
    { result := .ok Matrix4d.Zero, after := { sa with animations := animations1 } }

/-- The loop of `PoseAt` over the node map, `pose` being the mapping built so
far: each node's `FrameAt` value is stored under the node's name. -/
def poseLoop (M : MathLib) (fuel : Nat) (_time : ℚ) (_loop : Bool) :
    List (String × Option NodeAnimation) → List (String × Matrix4d) → PoseResult
  | [], pose => .ok pose
  | (_, none) :: _, _ => .pastTheEnd
  | (n, some na) :: rest, pose =>
    match na.FrameAt M fuel _time _loop with
    | .ok m => poseLoop M fuel _time _loop rest (strAssign n m pose)
    | .invalidTimeRange m => poseLoop M fuel _time _loop rest (strAssign n m pose)
    | .pastTheEnd => .pastTheEnd
    | .noReturn => .noReturn

/-- The method `SkeletonAnimation::PoseAt(_time, _loop)`. -/
def PoseAt (M : MathLib) (fuel : Nat) (sa : SkeletonAnimation) (_time : ℚ) (_loop : Bool) :
    PoseResult :=
  poseLoop M fuel _time _loop sa.animations []

/-- The loop `while (x > lastX) x -= lastX;` of `PoseAtX` with a bound on the
number of iterations. -/
def wrapX (lastX : ℚ) : Nat → ℚ → Option ℚ
  | 0, x => if x > lastX then none else some x
  | fuel + 1, x => if x > lastX then wrapX lastX fuel (x - lastX) else some x

/-- The method `SkeletonAnimation::PoseAtX(_x, _node, _loop)`.  The iterator
returned by `find` is dereferenced without a check; `FrameCount() - 1` is
computed on `unsigned int`. -/
def PoseAtX (M : MathLib) (fuel : Nat) (sa : SkeletonAnimation) (_x : ℚ) (_node : String)
    (_loop : Bool) : PoseResult :=
  match strFind _node sa.animations with
  | some (some na) =>
    let lastPos :=
      (na.KeyFramePair (if na.FrameCount = 0 then 4294967295 else na.FrameCount - 1)).trans
    let firstPos := (na.KeyFramePair 0).trans
    let x := _x
    let x := if x < firstPos.Translation.X then firstPos.Translation.X else x
    let lastX := lastPos.Translation.X
    let x := if x > lastX ∧ !_loop then lastX else x
    match wrapX lastX fuel x with
    | none => .noReturn
    | some x =>
      match na.TimeAtX M x with
      | none => .pastTheEnd
      | some time => sa.PoseAt M fuel time _loop
  | _ => .pastTheEnd

/-- The loop of `SkeletonAnimation::Scale` over the node map; `none` when a
null pointer is dereferenced. -/
def scaleNodes (_scale : ℚ) :
    List (String × Option NodeAnimation) → Option (List (String × Option NodeAnimation))
  | [] => some []
  | (_, none) :: _ => none
  | (n, some na) :: rest =>
    (scaleNodes _scale rest).map (fun r => (n, some (na.Scale _scale)) :: r)

/-- The method `SkeletonAnimation::Scale(_scale)`. -/
def Scale (sa : SkeletonAnimation) (_scale : ℚ) : Option SkeletonAnimation :=
  (scaleNodes _scale sa.animations).map (fun a => { sa with animations := a })

/-- The method `SkeletonAnimation::Length`. -/
def Length (sa : SkeletonAnimation) : ℚ := sa.length

/-- A sequence of `AddKeyFrame(node, time, transform)` calls, in the order
given; `none` as soon as one of them dereferences a null pointer. -/
def addKeyFrames (sa : SkeletonAnimation) :
    List (String × ℚ × Matrix4d) → Option SkeletonAnimation
  | [] => some sa
  | c :: cs =>
    match sa.AddKeyFrame c.1 c.2.1 c.2.2 with
    | some sa1 => addKeyFrames sa1 cs
    | none => none

/-- The clips a program can hold by using the constructor and the mutating
methods.  (The queries are not listed; `NodePoseAt` is treated on its own.) -/
inductive Reachable : SkeletonAnimation → Prop
  | new (_name : String) : Reachable (SkeletonAnimation.new _name)
  | setName {sa : SkeletonAnimation} (_name : String) :
      Reachable sa → Reachable (sa.SetName _name)
  | addKeyFrame {sa sa1 : SkeletonAnimation} (_node : String) (_time : ℚ) (_mat : Matrix4d) :
      Reachable sa → sa.AddKeyFrame _node _time _mat = some sa1 → Reachable sa1
  | scale {sa sa1 : SkeletonAnimation} (_scale : ℚ) :
      Reachable sa → sa.Scale _scale = some sa1 → Reachable sa1

end SkeletonAnimation

/-- The keyframes added under the name `n` in a sequence of clip-level
`AddKeyFrame` calls, in call order. -/
def callsFor (n : String) (calls : List (String × ℚ × Matrix4d)) : List (ℚ × Matrix4d) :=
  (calls.filter (fun c => decide (c.1 = n))).map (fun c => c.2)

/-- The value a returning `FrameAt` call hands back (`Matrix4d()` on the
"Invalid time range" path); `none` when the call does not return a value. -/
def NodeAnimation.FrameResult.value? : NodeAnimation.FrameResult → Option Matrix4d
  | .ok m => some m
  | .invalidTimeRange m => some m
  | .pastTheEnd => none
  | .noReturn => none

/-- A matrix that is the identity except for the translation `(x, y, z)`. -/
def posMatrix (x y z : ℚ) : Matrix4d :=
  Matrix4d.Identity.Translate ⟨x, y, z⟩

/-- A sample collaborator with tolerance `10^-6`; the stand-in for the slerp
returns the rotation of the first matrix. -/
def sampleMath : MathLib :=
  { epsilon := 1 / 1000000, epsilon_nonneg := by norm_num, slerpMatrix := fun _ prev _ => prev }

/-- The same collaborator with the coarser tolerance `10^-3`. -/
def coarseMath : MathLib :=
  { epsilon := 1 / 1000, epsilon_nonneg := by norm_num, slerpMatrix := fun _ prev _ => prev }

/-- The two-keyframe animation of the spec's concrete scenario:
`(t=0, pos (0,0,0))` and `(t=10, pos (10,0,0))`, inserted latest first. -/
def twoKeys : NodeAnimation :=
  ((NodeAnimation.new "bone").AddKeyFrame 10 (posMatrix 10 0 0)).AddKeyFrame 0 (posMatrix 0 0 0)

/-- Three keyframes at times 0, 10, 20 with X positions 0, 10, 20. -/
def threeKeys : NodeAnimation :=
  (NodeAnimation.new "bone").addKeyFrames
    [(0, posMatrix 0 0 0), (20, posMatrix 20 0 0), (10, posMatrix 10 0 0)]

/-- A store with two keyframes closer together than the tolerance. -/
def closeKeys : NodeAnimation :=
  (NodeAnimation.new "bone").addKeyFrames
    [(0, posMatrix 1 0 0), (1 / 10000000, posMatrix 2 0 0), (10, posMatrix 3 0 0)]

/-- A store whose only keyframe has a negative time. -/
def negativeKey : NodeAnimation :=
  (NodeAnimation.new "bone").AddKeyFrame (-5) (posMatrix 1 0 0)

/-- A node animation with a single keyframe at time 0. -/
def singleKeyAtZero : NodeAnimation :=
  (NodeAnimation.new "bone").AddKeyFrame 0 (posMatrix 1 2 3)

/-- A new clip with no nodes. -/
def emptyClip : SkeletonAnimation := SkeletonAnimation.new "walk"

/-- Three clip-level calls: two keyframes for "hip", one for "knee". -/
def walkCalls : List (String × ℚ × Matrix4d) :=
  [("hip", 0, posMatrix 0 0 0), ("knee", 0, posMatrix 0 1 0), ("hip", 10, posMatrix 10 0 0)]

/-- The clip built by `walkCalls` on a new clip. -/
def walkClip : SkeletonAnimation :=
  { name := "walk", length := 10,
    animations :=
      [("hip", some { name := "hip", length := 10,
                      keyFrames := [(0, posMatrix 0 0 0), (10, posMatrix 10 0 0)] }),
       ("knee", some { name := "knee", length := 0, keyFrames := [(0, posMatrix 0 1 0)] })] }

/-- The point of `FrameAt` (line 154) where the fraction
`t = (time - prevKey) / (nextKey - prevKey)` is computed: the pair
`(prevKey, nextKey)` when the call, at the adjusted time, gets that far, and
`none` when it has returned before.  The branches are those of
`NodeAnimation.frameAtAdjusted`. -/
def NodeAnimation.fractionKeys (M : MathLib) (na : NodeAnimation) (time : ℚ) : Option (ℚ × ℚ) :=
  if M.equal time na.length then none
  else
    let it1 := upper_bound time na.keyFrames
    match na.keyFrames[it1]? with
    | none => none
    | some kvA =>
      if it1 = 0 ∨ M.equal kvA.1 time then none
      else
        let it2 := it1
        let it1 := it1 - 1
        match na.keyFrames[it1]?, na.keyFrames[it2]? with
        | some kvPrev, some kvNext =>
          if it1 = 0 ∨ M.equal kvPrev.1 time then none
          else some (kvPrev.1, kvNext.1)
        | _, _ => none

/-- The argument that `PoseAtX` hands to the node's `TimeAtX` (line 335): `_x`
raised to the first X, lowered to the last X when not looping, then wrapped by
the `while` loop; `none` when that loop is still running when the fuel runs
out.  The steps are those of `SkeletonAnimation.PoseAtX`. -/
def SkeletonAnimation.timeAtXArgument (fuel : Nat) (na : NodeAnimation) (_x : ℚ)
    (_loop : Bool) : Option ℚ :=
  let lastPos :=
    (na.KeyFramePair (if na.FrameCount = 0 then 4294967295 else na.FrameCount - 1)).trans
  let firstPos := (na.KeyFramePair 0).trans
  let x := _x
  let x := if x < firstPos.Translation.X then firstPos.Translation.X else x
  let lastX := lastPos.Translation.X
  let x := if x > lastX ∧ !_loop then lastX else x
  SkeletonAnimation.wrapX lastX fuel x

/-- Two keyframes, at times 10 and `10 + 10^-7`, closer than the tolerance. -/
def nearKeys : NodeAnimation :=
  (NodeAnimation.new "bone").addKeyFrames
    [(10, posMatrix 1 0 0), (10 + 1 / 10000000, posMatrix 2 0 0)]

/-- A clip whose node "hip" has a single keyframe, at time 0 with X = 0. -/
def stillClip : SkeletonAnimation :=
  { name := "still", length := 0,
    animations := [("hip", some { name := "hip", length := 0,
                                  keyFrames := [(0, posMatrix 0 0 0)] })] }

/-- A clip whose node "hip" moves from X = -4 at time 0 to X = -2 at time 10. -/
def backClip : SkeletonAnimation :=
  { name := "back", length := 10,
    animations := [("hip", some { name := "hip", length := 10,
                                  keyFrames := [(0, posMatrix (-4) 0 0),
                                                (10, posMatrix (-2) 0 0)] })] }

/-- The double nearest to 0.1. -/
def tenth : ℚ := 3602879701896397 / 36028797018963968

/-- Two keyframes, at time 0 and at time `tenth`. -/
def tenthKeys : NodeAnimation :=
  (NodeAnimation.new "bone").addKeyFrames [(0, posMatrix 1 0 0), (tenth, posMatrix 2 0 0)]

/-- Ascending key order of the container. -/
def KeysSorted (l : List (ℚ × Matrix4d)) : Prop :=
  l.Pairwise (fun a b => a.1 < b.1)

/-- The invariant of every reachable `NodeAnimation`: the store is in ascending
key order, `length` is nonnegative and bounds every key, and a positive
`length` is the time of a stored keyframe. -/
structure NodeAnimation.Inv (na : NodeAnimation) : Prop where
  sorted : KeysSorted na.keyFrames
  nonneg : 0 ≤ na.length
  bound : ∀ kv ∈ na.keyFrames, kv.1 ≤ na.length
  attained : 0 < na.length → ∃ kv ∈ na.keyFrames, kv.1 = na.length

/-- Ascending key order of a map with string keys. -/
def StrSorted {β : Type} (l : List (String × β)) : Prop :=
  l.Pairwise (fun a b => a.1 < b.1)

/-- The node animation stored under `n`, or a new one named `n` when the clip
has none: the object that `AddKeyFrame(n, ...)` adds its keyframe to. -/
def SkeletonAnimation.nodeOrNew (sa : SkeletonAnimation) (n : String) : NodeAnimation :=
  match strFind n sa.animations with
  | some (some na) => na
  | _ => NodeAnimation.new n

/-- The `Length()` of every node animation of a clip, null entries skipped. -/
def nodeLengths (sa : SkeletonAnimation) : List ℚ :=
  (sa.animations.filterMap (fun e => e.2)).map NodeAnimation.Length

/-- The invariant of every reachable clip: the node map is in ascending key
order and holds no null pointer, every node animation is a reachable one with
at least one keyframe, `length` is nonnegative and bounds every node's length,
and a positive `length` is the length of some node. -/
structure SkeletonAnimation.Inv (sa : SkeletonAnimation) : Prop where
  sorted : StrSorted sa.animations
  nonnull : ∀ n, strFind n sa.animations ≠ some none
  nodes : ∀ n na, strFind n sa.animations = some (some na) →
    na.Reachable ∧ na.keyFrames ≠ []
  nonneg : 0 ≤ sa.length
  bound : ∀ n na, strFind n sa.animations = some (some na) → na.length ≤ sa.length
  attained : 0 < sa.length →
    ∃ n na, strFind n sa.animations = some (some na) ∧ na.length = sa.length

/-! ## Helper lemmas -/

theorem fabs_eq_abs (x : ℚ) : fabs x = |x| := by
  unfold fabs
  split_ifs with h
  · exact (abs_of_neg h).symm
  · exact (abs_of_nonneg (not_lt.mp h)).symm

theorem MathLib.equal_iff (M : MathLib) (a b : ℚ) :
    M.equal a b = true ↔ |a - b| ≤ M.epsilon := by
  simp [MathLib.equal, fabs_eq_abs]

theorem MathLib.equal_self (M : MathLib) (a : ℚ) : M.equal a a = true := by
  rw [MathLib.equal_iff]
  simpa using M.epsilon_nonneg

theorem mem_mapAssign {k : ℚ} {v : Matrix4d} {l : List (ℚ × Matrix4d)} {kv : ℚ × Matrix4d}
    (h : kv ∈ mapAssign k v l) : kv = (k, v) ∨ kv ∈ l := by
  induction l with
  | nil => simp [mapAssign] at h; exact Or.inl h
  | cons a rest ih =>
    unfold mapAssign at h
    split_ifs at h with h1 h2
    · rcases List.mem_cons.mp h with h | h
      · exact Or.inl h
      · exact Or.inr h
    · rcases List.mem_cons.mp h with h | h
      · exact Or.inl h
      · exact Or.inr (List.mem_cons_of_mem _ h)
    · rcases List.mem_cons.mp h with h | h
      · exact Or.inr (h ▸ List.mem_cons_self _ _)
      · rcases ih h with h | h
        · exact Or.inl h
        · exact Or.inr (List.mem_cons_of_mem _ h)

theorem keysSorted_mapAssign (k : ℚ) (v : Matrix4d) (l : List (ℚ × Matrix4d))
    (hs : KeysSorted l) : KeysSorted (mapAssign k v l) := by
  induction l with
  | nil => simp [mapAssign, KeysSorted]
  | cons a rest ih =>
    have hs' := List.pairwise_cons.mp hs
    unfold mapAssign
    split_ifs with h1 h2
    · refine List.pairwise_cons.mpr ⟨?_, hs⟩
      intro b hb
      rcases List.mem_cons.mp hb with hb | hb
      · simpa [hb] using h1
      · exact lt_trans h1 (hs'.1 b hb)
    · refine List.pairwise_cons.mpr ⟨?_, hs'.2⟩
      intro b hb
      simpa [h2] using hs'.1 b hb
    · refine List.pairwise_cons.mpr ⟨?_, ih hs'.2⟩
      intro b hb
      rcases mem_mapAssign hb with hb | hb
      · have : a.1 < k := lt_of_le_of_ne (not_lt.mp h1) (fun e => h2 e.symm)
        simpa [hb] using this
      · exact hs'.1 b hb

theorem mapFind_mapAssign_self (k : ℚ) (v : Matrix4d) (l : List (ℚ × Matrix4d)) :
    mapFind k (mapAssign k v l) = some v := by
  induction l with
  | nil => simp [mapAssign, mapFind]
  | cons a rest ih =>
    unfold mapAssign
    split_ifs with h1 h2
    · simp [mapFind]
    · simp [mapFind]
    · have : a.1 ≠ k := fun e => h2 e.symm
      simp [mapFind, this, ih]

theorem mapFind_mapAssign_other (k t : ℚ) (v : Matrix4d) (l : List (ℚ × Matrix4d))
    (h : t ≠ k) : mapFind t (mapAssign k v l) = mapFind t l := by
  induction l with
  | nil => simp [mapAssign, mapFind, h.symm]
  | cons a rest ih =>
    unfold mapAssign
    split_ifs with h1 h2
    · simp [mapFind, h.symm]
    · have : a.1 ≠ t := fun e => h (e.symm.trans h2.symm)
      simp [mapFind, h.symm, this]
    · simp [mapFind, ih]

/-- On a sorted store, the lookup finds exactly the stored pairs. -/
theorem mapFind_eq_some_iff {l : List (ℚ × Matrix4d)} (hs : KeysSorted l) (k : ℚ)
    (v : Matrix4d) : mapFind k l = some v ↔ (k, v) ∈ l := by
  induction l with
  | nil => simp [mapFind]
  | cons a rest ih =>
    have hs' := List.pairwise_cons.mp hs
    unfold mapFind
    split_ifs with h1
    · constructor
      · intro h
        have : a = (k, v) := by
          cases a; simp at h1 h; simp [h1, h]
        exact this ▸ List.mem_cons_self _ _
      · intro h
        rcases List.mem_cons.mp h with h | h
        · simp [← h]
        · have := hs'.1 _ h
          simp [h1] at this
    · rw [ih hs'.2]
      constructor
      · exact fun h => List.mem_cons_of_mem _ h
      · intro h
        rcases List.mem_cons.mp h with h | h
        · exact absurd (by simp [← h]) h1
        · exact h

theorem NodeAnimation.Inv.addKeyFrame {na : NodeAnimation} (h : na.Inv) (t : ℚ)
    (m : Matrix4d) : (na.AddKeyFrame t m).Inv := by
  have hmem : (t, m) ∈ mapAssign t m na.keyFrames :=
    (mapFind_eq_some_iff (keysSorted_mapAssign t m _ h.sorted) t m).mp
      (mapFind_mapAssign_self t m _)
  refine ⟨keysSorted_mapAssign t m _ h.sorted, ?_, ?_, ?_⟩
  · show 0 ≤ (if t > na.length then t else na.length)
    split_ifs with h1
    · exact le_of_lt (lt_of_le_of_lt h.nonneg h1)
    · exact h.nonneg
  · intro kv hkv
    show kv.1 ≤ (if t > na.length then t else na.length)
    rcases mem_mapAssign hkv with e | hin
    · subst e
      split_ifs with h1
      · exact le_refl _
      · exact not_lt.mp h1
    · have := h.bound kv hin
      split_ifs with h1
      · exact le_of_lt (lt_of_le_of_lt this h1)
      · exact this
  · show 0 < (if t > na.length then t else na.length) →
      ∃ kv ∈ mapAssign t m na.keyFrames, kv.1 = (if t > na.length then t else na.length)
    split_ifs with h1
    · intro _
      exact ⟨(t, m), hmem, rfl⟩
    · intro hpos
      obtain ⟨kv, hkv, e⟩ := h.attained hpos
      by_cases hk : kv.1 = t
      · exact ⟨(t, m), hmem, by simpa [hk] using e⟩
      · refine ⟨kv, ?_, e⟩
        have h1 : mapFind kv.1 na.keyFrames = some kv.2 :=
          (mapFind_eq_some_iff h.sorted kv.1 kv.2).mpr hkv
        have h2 := mapFind_mapAssign_other t kv.1 m na.keyFrames hk
        exact (mapFind_eq_some_iff (keysSorted_mapAssign t m _ h.sorted) kv.1 kv.2).mp
          (h2.trans h1)

theorem NodeAnimation.Inv.scale {na : NodeAnimation} (h : na.Inv) (f : ℚ) :
    (na.Scale f).Inv := by
  refine ⟨?_, h.nonneg, ?_, ?_⟩
  · show KeysSorted (na.keyFrames.map _)
    exact List.Pairwise.map _ (fun _ _ hab => hab) h.sorted
  · intro kv hkv
    obtain ⟨a, ha, e⟩ := List.mem_map.mp hkv
    subst e
    exact h.bound a ha
  · intro hpos
    obtain ⟨kv, hkv, e⟩ := h.attained hpos
    exact ⟨_, List.mem_map.mpr ⟨kv, hkv, rfl⟩, e⟩

/-- Every reachable object satisfies the invariant. -/
theorem NodeAnimation.Reachable.inv {na : NodeAnimation} (h : na.Reachable) : na.Inv := by
  induction h with
  | new n =>
    exact ⟨List.Pairwise.nil, le_refl _, fun kv hkv => by simp [NodeAnimation.new] at hkv,
      fun hpos => absurd hpos (lt_irrefl _)⟩
  | setName n _ ih => exact ⟨ih.sorted, ih.nonneg, ih.bound, ih.attained⟩
  | addKeyFrame t m _ ih => exact ih.addKeyFrame t m
  | scale f _ ih => exact ih.scale f

theorem NodeAnimation.Reachable.addKeyFrames {na : NodeAnimation} (h : na.Reachable)
    (calls : List (ℚ × Matrix4d)) : (na.addKeyFrames calls).Reachable := by
  induction calls generalizing na with
  | nil => exact h
  | cons c cs ih => exact ih (h.addKeyFrame c.1 c.2)

theorem NodeAnimation.addKeyFrames_cons (na : NodeAnimation) (c : ℚ × Matrix4d)
    (cs : List (ℚ × Matrix4d)) :
    na.addKeyFrames (c :: cs) = (na.AddKeyFrame c.1 c.2).addKeyFrames cs := rfl

theorem NodeAnimation.length_le_addKeyFrames (na : NodeAnimation)
    (calls : List (ℚ × Matrix4d)) :
    na.length ≤ (na.addKeyFrames calls).length ∧
    (∀ c ∈ calls, c.1 ≤ (na.addKeyFrames calls).length) ∧
    ((na.addKeyFrames calls).length = na.length ∨
      ∃ c ∈ calls, c.1 = (na.addKeyFrames calls).length) := by
  induction calls generalizing na with
  | nil => simp [NodeAnimation.addKeyFrames]
  | cons c cs ih =>
    rw [NodeAnimation.addKeyFrames_cons]
    obtain ⟨h1, h2, h3⟩ := ih (na.AddKeyFrame c.1 c.2)
    have hlen : (na.AddKeyFrame c.1 c.2).length = if c.1 > na.length then c.1 else na.length :=
      rfl
    have hge : na.length ≤ (na.AddKeyFrame c.1 c.2).length ∧
        c.1 ≤ (na.AddKeyFrame c.1 c.2).length := by
      rw [hlen]
      split_ifs with hc
      · exact ⟨le_of_lt hc, le_refl _⟩
      · exact ⟨le_refl _, not_lt.mp hc⟩
    refine ⟨le_trans hge.1 h1, ?_, ?_⟩
    · intro d hd
      rcases List.mem_cons.mp hd with e | hd
      · subst e
        exact le_trans hge.2 h1
      · exact h2 d hd
    · rcases h3 with e | ⟨d, hd, e⟩
      · rw [e, hlen]
        split_ifs with hc
        · exact Or.inr ⟨c, List.mem_cons_self _ _, rfl⟩
        · exact Or.inl rfl
      · exact Or.inr ⟨d, List.mem_cons_of_mem _ hd, e⟩

/-- On a sorted store the last entry carries the greatest key. -/
theorem getLast?_greatest {l : List (ℚ × Matrix4d)} (hs : KeysSorted l) {kv : ℚ × Matrix4d}
    (h : l.getLast? = some kv) : kv ∈ l ∧ ∀ a ∈ l, a.1 ≤ kv.1 := by
  induction l with
  | nil => simp at h
  | cons b rest ih =>
    have hs' := List.pairwise_cons.mp hs
    cases rest with
    | nil =>
      simp at h
      subst h
      simp
    | cons c cs =>
      rw [List.getLast?_cons_cons] at h
      obtain ⟨h1, h2⟩ := ih hs'.2 h
      refine ⟨List.mem_cons_of_mem _ h1, ?_⟩
      intro a ha
      rcases List.mem_cons.mp ha with e | ha
      · subst e
        exact le_of_lt (hs'.1 kv h1)
      · exact h2 a ha

theorem getLast?_of_ne_nil {l : List (ℚ × Matrix4d)} (h : l ≠ []) :
    ∃ kv, l.getLast? = some kv := by
  cases hl : l.getLast? with
  | none => exact absurd (List.getLast?_eq_none_iff.mp hl) h
  | some kv => exact ⟨kv, rfl⟩

/-- The upper bound of a stored key `t` that has a later neighbour: the search
lands on a stored entry with a greater key, and the entry just before it is the
one stored at `t`. -/
theorem upper_bound_of_stored {l : List (ℚ × Matrix4d)} (hs : KeysSorted l) {t : ℚ}
    {m : Matrix4d} (hm : (t, m) ∈ l) (hlater : ∃ kv ∈ l, t < kv.1) :
    0 < upper_bound t l ∧
    (∃ kvN, l[upper_bound t l]? = some kvN ∧ kvN ∈ l ∧ t < kvN.1) ∧
    l[upper_bound t l - 1]? = some (t, m) := by
  induction l with
  | nil => simp at hm
  | cons a rest ih =>
    have hs' := List.pairwise_cons.mp hs
    have hna : ¬ t < a.1 := by
      rcases List.mem_cons.mp hm with e | hin
      · rw [← e]; exact lt_irrefl _
      · exact not_lt.mpr (le_of_lt (hs'.1 _ hin))
    have hub : upper_bound t (a :: rest) = upper_bound t rest + 1 := by
      simp [upper_bound, hna]
    obtain ⟨kv, hkv, hlt⟩ := hlater
    have hkvrest : kv ∈ rest := by
      rcases List.mem_cons.mp hkv with e | hin
      · exact absurd (e ▸ hlt) hna
      · exact hin
    rw [hub]
    refine ⟨Nat.succ_pos _, ?_, ?_⟩
    · rcases List.mem_cons.mp hm with e | hin
      · -- the stored entry is the head: every later key is greater
        cases rest with
        | nil => simp at hkvrest
        | cons b bs =>
          have hb : t < b.1 := by
            have := hs'.1 b (List.mem_cons_self _ _)
            rw [← e] at this
            exact this
          refine ⟨b, ?_, List.mem_cons_of_mem _ (List.mem_cons_self _ _), hb⟩
          simp [upper_bound, hb]
      · obtain ⟨_, ⟨kvN, h1, h2, h3⟩, _⟩ := ih hs'.2 hin ⟨kv, hkvrest, hlt⟩
        exact ⟨kvN, by simpa using h1, List.mem_cons_of_mem _ h2, h3⟩
    · rcases List.mem_cons.mp hm with e | hin
      · cases rest with
        | nil => simp at hkvrest
        | cons b bs =>
          have hb : t < b.1 := by
            have := hs'.1 b (List.mem_cons_self _ _)
            rw [← e] at this
            exact this
          simp [upper_bound, hb, e]
      · obtain ⟨hpos, _, h3⟩ := ih hs'.2 hin ⟨kv, hkvrest, hlt⟩
        obtain ⟨n, hn⟩ := Nat.exists_eq_succ_of_ne_zero (Nat.pos_iff_ne_zero.mp hpos)
        rw [hn] at h3 ⊢
        simpa using h3

/-! ## Claims -/

/-- C1 (as amended): after a non-empty sequence of `AddKeyFrame` calls on a new
`NodeAnimation`, in any order, `Length()` equals the larger of 0 and the
maximum `m` of the inserted times; it is that maximum exactly when the maximum
is not negative. -/
theorem C1_length_is_max_with_zero (name : String) (calls : List (ℚ × Matrix4d)) (m : ℚ)
    (hm : m ∈ calls.map Prod.fst) (hmax : ∀ t ∈ calls.map Prod.fst, t ≤ m) :
    ((NodeAnimation.new name).addKeyFrames calls).Length = max 0 m ∧
    (0 ≤ m → ((NodeAnimation.new name).addKeyFrames calls).Length = m) := by
  obtain ⟨h1, h2, h3⟩ := NodeAnimation.length_le_addKeyFrames (NodeAnimation.new name) calls
  have h0 : (NodeAnimation.new name).length = 0 := rfl
  rw [h0] at h1 h3
  obtain ⟨c, hc, hcm⟩ := List.mem_map.mp hm
  have hle : m ≤ ((NodeAnimation.new name).addKeyFrames calls).length := hcm ▸ h2 c hc
  have key : ((NodeAnimation.new name).addKeyFrames calls).length = max 0 m := by
    apply le_antisymm
    · rcases h3 with e | ⟨d, hd, e⟩
      · rw [e]; exact le_max_left _ _
      · rw [← e]
        exact le_trans (hmax d.1 (List.mem_map.mpr ⟨d, hd, rfl⟩)) (le_max_right _ _)
    · exact max_le h1 hle
  refine ⟨key, fun hpos => ?_⟩
  show ((NodeAnimation.new name).addKeyFrames calls).length = m
  rw [key, max_eq_right hpos]

/-- C1 witness: times 3, 7, 5 inserted in that order give length 7. -/
theorem C1_length_is_max_with_zero_witness :
    ((NodeAnimation.new "bone").addKeyFrames
      [(3, Matrix4d.Identity), (7, Matrix4d.Identity), (5, Matrix4d.Identity)]).Length
      = max 0 7 ∧
    ((0 : ℚ) ≤ 7 → ((NodeAnimation.new "bone").addKeyFrames
      [(3, Matrix4d.Identity), (7, Matrix4d.Identity), (5, Matrix4d.Identity)]).Length = 7) :=
  C1_length_is_max_with_zero "bone"
    [(3, Matrix4d.Identity), (7, Matrix4d.Identity), (5, Matrix4d.Identity)] 7
    (by simp) (by intro t ht; simp at ht; rcases ht with h | h | h <;> rw [h] <;> norm_num)

/-- C1 counterexample: one call `AddKeyFrame(-1, Identity)` on a new object; the
only (hence maximum) inserted time is -1, but `Length()` is 0. -/
theorem C1_counterexample_negative_time :
    (-1 : ℚ) ∈ [((-1 : ℚ), Matrix4d.Identity)].map Prod.fst ∧
    (∀ t ∈ [((-1 : ℚ), Matrix4d.Identity)].map Prod.fst, t ≤ -1) ∧
    ((NodeAnimation.new "bone").addKeyFrames [(-1, Matrix4d.Identity)]).Length = 0 ∧
    ((NodeAnimation.new "bone").addKeyFrames [(-1, Matrix4d.Identity)]).Length ≠ -1 := by
  refine ⟨by simp, by simp, by decide!, by decide!⟩

/-- C2 (the code at the failing inputs): with keyframes `(t=0, pos (0,0,0))` and
`(t=10, pos (10,0,0))`, `FrameAt(5, false)` returns the first keyframe's
transform, whose translation is `(0,0,0)` and not the interpolated `(5,0,0)`;
with keyframes at 0, 10, 20, `FrameAt(15, false)` reports "Invalid time range"
and returns the all-zero default matrix. -/
theorem C2_frameAt_between_keys_not_interpolated :
    twoKeys.FrameAt sampleMath 0 5 false = .ok (posMatrix 0 0 0) ∧
    (posMatrix 0 0 0).Translation = ⟨0, 0, 0⟩ ∧
    (posMatrix 0 0 0).Translation ≠ ⟨5, 0, 0⟩ ∧
    threeKeys.FrameAt sampleMath 0 15 false = .invalidTimeRange Matrix4d.Zero := by
  refine ⟨by decide!, by decide!, by decide!, by decide!⟩

theorem NodeAnimation.frameAt_of_le (M : MathLib) (fuel : Nat) (na : NodeAnimation) (t : ℚ)
    (loop : Bool) (h : t ≤ na.length) :
    na.FrameAt M fuel t loop = na.frameAtAdjusted M t := by
  simp [NodeAnimation.FrameAt, NodeAnimation.adjustTime, not_lt.mpr h]

/-- C3 (as amended): for every reachable `NodeAnimation` and every time `t` of a
stored keyframe such that no later stored keyframe time is within the
comparison tolerance of `t`, and such that `t` is within tolerance of
`Length()` or a later keyframe exists, `FrameAt(t, false)` returns exactly the
transform stored at `t`. -/
theorem C3_frameAt_stored_time (M : MathLib) (fuel : Nat) (na : NodeAnimation) (t : ℚ)
    (m : Matrix4d) (hr : na.Reachable) (hm : mapFind t na.keyFrames = some m)
    (hnear : ∀ kv ∈ na.keyFrames, t < kv.1 → M.equal kv.1 t = false)
    (hlast : M.equal t na.Length = true ∨ ∃ kv ∈ na.keyFrames, t < kv.1) :
    na.FrameAt M fuel t false = .ok m := by
  have inv := hr.inv
  have hmem : (t, m) ∈ na.keyFrames := (mapFind_eq_some_iff inv.sorted t m).mp hm
  have hle : t ≤ na.length := inv.bound _ hmem
  rw [NodeAnimation.frameAt_of_le M fuel na t false hle]
  unfold NodeAnimation.frameAtAdjusted
  by_cases heq : M.equal t na.length = true
  · rw [if_pos heq]
    obtain ⟨kv, hkv⟩ := getLast?_of_ne_nil (List.ne_nil_of_mem hmem)
    obtain ⟨hin, hmax⟩ := getLast?_greatest inv.sorted hkv
    have hkt : kv.1 = t := by
      by_contra hne
      have hlt : t < kv.1 := lt_of_le_of_ne (hmax _ hmem) (fun e => hne e.symm)
      have hfalse := hnear kv hin hlt
      have htrue : M.equal kv.1 t = true := by
        rw [MathLib.equal_iff] at heq ⊢
        have h1 := inv.bound kv hin
        rw [abs_le] at heq ⊢
        constructor <;> linarith [heq.1, heq.2, M.epsilon_nonneg]
      rw [htrue] at hfalse
      exact Bool.noConfusion hfalse
    have hk2 : kv.2 = m := by
      have h1 : mapFind kv.1 na.keyFrames = some kv.2 :=
        (mapFind_eq_some_iff inv.sorted kv.1 kv.2).mpr hin
      rw [hkt, hm] at h1
      exact (Option.some.inj h1).symm
    simp [hkv, hk2]
  · rw [if_neg heq]
    have hlater : ∃ kv ∈ na.keyFrames, t < kv.1 := by
      rcases hlast with h | h
      · exact absurd h heq
      · exact h
    obtain ⟨hpos, ⟨kvN, hN, hNin, hNlt⟩, hprev⟩ := upper_bound_of_stored inv.sorted hmem hlater
    have hNne : M.equal kvN.1 t = false := hnear kvN hNin hNlt
    simp [hN, hprev, hNne, Nat.pos_iff_ne_zero.mp hpos, MathLib.equal_self]

/-- C3 witness: the two-keyframe animation queried at its stored time 0. -/
theorem C3_frameAt_stored_time_witness :
    twoKeys.FrameAt sampleMath 0 0 false = .ok (posMatrix 0 0 0) :=
  C3_frameAt_stored_time sampleMath 0 twoKeys 0 (posMatrix 0 0 0)
    (((NodeAnimation.Reachable.new "bone").addKeyFrame 10 (posMatrix 10 0 0)).addKeyFrame 0
      (posMatrix 0 0 0))
    (by decide!) (by decide!) (Or.inr ⟨(10, posMatrix 10 0 0), by decide!, by decide!⟩)

/-- C3 counterexample: with keyframes at 0 and `10^-7` (and 10), the transform
stored at time 0 has X = 1 but `FrameAt(0, false)` returns the neighbour's
transform (X = 2), for the tolerance `10^-6` and for `10^-3`; and with a single
keyframe at time -5, `FrameAt(-5, false)` reads past the end of the store. -/
theorem C3_counterexample_close_or_negative_keys :
    mapFind 0 closeKeys.keyFrames = some (posMatrix 1 0 0) ∧
    closeKeys.FrameAt sampleMath 0 0 false = .ok (posMatrix 2 0 0) ∧
    closeKeys.FrameAt coarseMath 0 0 false = .ok (posMatrix 2 0 0) ∧
    posMatrix 2 0 0 ≠ posMatrix 1 0 0 ∧
    mapFind (-5) negativeKey.keyFrames = some (posMatrix 1 0 0) ∧
    negativeKey.FrameAt sampleMath 0 (-5) false = .pastTheEnd := by
  refine ⟨by decide!, by decide!, by decide!, by decide!, by decide!, by decide!⟩

/-- C4: for every reachable `NodeAnimation` with at least one keyframe and every
query time greater than `Length()`, `FrameAt(time, false)` returns the transform
of the last keyframe, the one with the greatest time. -/
theorem C4_frameAt_after_length_clamps (M : MathLib) (fuel : Nat) (na : NodeAnimation)
    (time : ℚ) (hr : na.Reachable) (hne : 0 < na.FrameCount) (ht : na.Length < time) :
    ∃ kv, na.keyFrames.getLast? = some kv ∧ kv ∈ na.keyFrames ∧
      (∀ a ∈ na.keyFrames, a.1 ≤ kv.1) ∧
      na.FrameAt M fuel time false = .ok kv.2 := by
  have hnil : na.keyFrames ≠ [] := by
    intro e
    simp [NodeAnimation.FrameCount, e] at hne
  obtain ⟨kv, hkv⟩ := getLast?_of_ne_nil hnil
  obtain ⟨hin, hmax⟩ := getLast?_greatest hr.inv.sorted hkv
  refine ⟨kv, hkv, hin, hmax, ?_⟩
  have ht' : na.length < time := ht
  simp [NodeAnimation.FrameAt, NodeAnimation.adjustTime, ht', NodeAnimation.frameAtAdjusted,
    MathLib.equal_self, hkv]

/-- C4 witness: keyframes `(t=0, pos (0,0,0))` and `(t=10, pos (10,0,0))`;
`FrameAt(15, false)` is the keyframe at 10, with position `(10,0,0)`. -/
theorem C4_frameAt_after_length_clamps_witness :
    ∃ kv, twoKeys.keyFrames.getLast? = some kv ∧ kv ∈ twoKeys.keyFrames ∧
      (∀ a ∈ twoKeys.keyFrames, a.1 ≤ kv.1) ∧
      twoKeys.FrameAt sampleMath 0 15 false = .ok kv.2 :=
  C4_frameAt_after_length_clamps sampleMath 0 twoKeys 15
    (((NodeAnimation.Reachable.new "bone").addKeyFrame 10 (posMatrix 10 0 0)).addKeyFrame 0
      (posMatrix 0 0 0))
    (by decide!) (by decide!)

/-- The wrap-around loop on `t + k * L` with `0 < t ≤ L` makes `k` subtractions
and stops at `t`. -/
theorem NodeAnimation.wrapTime_add_mul (L t : ℚ) (hL : 0 < L) (h0 : 0 < t) (htL : t ≤ L) :
    ∀ (k fuel : Nat), k ≤ fuel → NodeAnimation.wrapTime L fuel (t + k * L) = some t := by
  intro k
  induction k with
  | zero =>
    intro fuel _
    cases fuel <;> simp [NodeAnimation.wrapTime, not_lt.mpr htL]
  | succ k ih =>
    intro fuel hk
    obtain ⟨f, rfl⟩ := Nat.exists_eq_succ_of_ne_zero (Nat.pos_iff_ne_zero.mp (Nat.lt_of_lt_of_le (Nat.succ_pos k) hk))
    rw [NodeAnimation.wrapTime]
    have hk0 : (0 : ℚ) ≤ (k : ℚ) * L := mul_nonneg (Nat.cast_nonneg k) (le_of_lt hL)
    have hgt : t + ((k + 1 : Nat) : ℚ) * L > L := by
      push_cast
      nlinarith
    rw [if_pos hgt]
    have hsub : t + ((k + 1 : Nat) : ℚ) * L - L = t + (k : ℚ) * L := by
      push_cast
      ring
    rw [hsub]
    exact ih f (Nat.le_of_succ_le_succ hk)

/-- The part of `FrameAt` after the time adjustment always returns. -/
theorem NodeAnimation.frameAtAdjusted_ne_noReturn (M : MathLib) (na : NodeAnimation) (t : ℚ) :
    na.frameAtAdjusted M t ≠ .noReturn := by
  unfold NodeAnimation.frameAtAdjusted
  split_ifs
  · split <;> simp
  · simp only []
    split
    · simp
    · split_ifs
      · simp
      · split
        · split_ifs <;> simp
        · simp

/-- C6 (the code at the failing inputs): the X values 0, 10 (and 0, 10, 20)
increase with time.  For `x = 5` on the two-keyframe animation `TimeAtX`
returns 5, yet `FrameAt(5, false)` has X = 0, which is not equal to 5 within
tolerance; for `x = 15` on the three-keyframe animation `TimeAtX` returns 15,
and `FrameAt(15, false)` reports "Invalid time range" and returns the all-zero
matrix, whose X is 0. -/
theorem C6_frameAt_of_timeAtX_misses_x :
    twoKeys.TimeAtX sampleMath 5 = some 5 ∧
    twoKeys.FrameAt sampleMath 0 5 false = .ok (posMatrix 0 0 0) ∧
    sampleMath.equal (posMatrix 0 0 0).Translation.X 5 = false ∧
    threeKeys.TimeAtX sampleMath 15 = some 15 ∧
    threeKeys.FrameAt sampleMath 0 15 false = .invalidTimeRange Matrix4d.Zero ∧
    sampleMath.equal Matrix4d.Zero.Translation.X 15 = false := by
  refine ⟨by decide!, by decide!, by decide!, by decide!, by decide!, by decide!⟩

theorem NodeAnimation.keyFramePair_of_lt (na : NodeAnimation) (i : Nat)
    (hi : i < na.keyFrames.length) :
    na.KeyFramePair i =
      { time := (na.keyFrames.get ⟨i, hi⟩).1, trans := (na.keyFrames.get ⟨i, hi⟩).2,
        reported := false, after := na } := by
  simp [NodeAnimation.KeyFramePair, NodeAnimation.KeyFrame, not_le.mpr hi,
    List.getElem?_eq_getElem hi]

/-- On a sorted store exactly `i` keys are smaller than the key at position `i`. -/
theorem count_smaller_keys {l : List (ℚ × Matrix4d)} (hs : KeysSorted l) (i : Nat)
    (hi : i < l.length) :
    (l.filter (fun kv => decide (kv.1 < (l.get ⟨i, hi⟩).1))).length = i := by
  induction l generalizing i with
  | nil => simp at hi
  | cons a rest ih =>
    have hs' := List.pairwise_cons.mp hs
    cases i with
    | zero =>
      have : rest.filter (fun kv => decide (kv.1 < a.1)) = [] := by
        rw [List.filter_eq_nil_iff]
        intro b hb
        simpa using le_of_lt (hs'.1 b hb)
      simp [List.filter_cons, this]
    | succ j =>
      have hj : j < rest.length := Nat.lt_of_succ_lt_succ hi
      have hlt : a.1 < (rest.get ⟨j, hj⟩).1 := hs'.1 _ (List.get_mem _ _ _)
      have := ih hs'.2 j hj
      simp only [List.get_eq_getElem, List.getElem_cons_succ] at hlt this ⊢
      simp [List.filter_cons, hlt, this]

/-- C7: for every reachable `NodeAnimation` and every index `i < FrameCount()`,
`KeyFrame(i)` reports no error, leaves the object alone and returns a stored
(time, transform) pair; exactly `i` stored times are smaller than the returned
time (it is the (i+1)-th smallest), and for `i < j < FrameCount()` the time of
`KeyFrame(i)` is strictly less than the time of `KeyFrame(j)`. -/
theorem C7_keyFrame_ordinal (na : NodeAnimation) (i : Nat) (hr : na.Reachable)
    (hi : i < na.FrameCount) :
    (na.KeyFramePair i).reported = false ∧
    (na.KeyFramePair i).after = na ∧
    mapFind (na.KeyFramePair i).time na.keyFrames = some (na.KeyFramePair i).trans ∧
    (na.keyFrames.filter (fun kv => decide (kv.1 < (na.KeyFramePair i).time))).length = i ∧
    ∀ j, i < j → j < na.FrameCount → (na.KeyFramePair i).time < (na.KeyFramePair j).time := by
  have hs := hr.inv.sorted
  have hi' : i < na.keyFrames.length := hi
  rw [NodeAnimation.keyFramePair_of_lt na i hi']
  refine ⟨rfl, rfl, ?_, ?_, ?_⟩
  · exact (mapFind_eq_some_iff hs _ _).mpr (List.get_mem _ _ _)
  · exact count_smaller_keys hs i hi'
  · intro j hij hj
    have hj' : j < na.keyFrames.length := hj
    rw [NodeAnimation.keyFramePair_of_lt na j hj']
    exact (List.pairwise_iff_get.mp hs) ⟨i, hi'⟩ ⟨j, hj'⟩ hij

/-- C7 witness: the animation built by inserting time 10 before time 0; index 0
is the keyframe at time 0. -/
theorem C7_keyFrame_ordinal_witness :
    (twoKeys.KeyFramePair 0).reported = false ∧
    (twoKeys.KeyFramePair 0).after = twoKeys ∧
    mapFind (twoKeys.KeyFramePair 0).time twoKeys.keyFrames
      = some (twoKeys.KeyFramePair 0).trans ∧
    (twoKeys.keyFrames.filter
      (fun kv => decide (kv.1 < (twoKeys.KeyFramePair 0).time))).length = 0 ∧
    ∀ j, 0 < j → j < twoKeys.FrameCount →
      (twoKeys.KeyFramePair 0).time < (twoKeys.KeyFramePair j).time :=
  C7_keyFrame_ordinal twoKeys 0
    (((NodeAnimation.Reachable.new "bone").addKeyFrame 10 (posMatrix 10 0 0)).addKeyFrame 0
      (posMatrix 0 0 0))
    (by decide!)

/-- C8: for every `NodeAnimation` and every index `i ≥ FrameCount()`, both
overloads of `KeyFrame` return: the time is the sentinel -1 and the error is
reported; the pair overload pairs the sentinel with the identity transform, the
out-parameter overload leaves the caller's matrix as it was; the object (and so
its stored keyframes) is unchanged. -/
theorem C8_keyFrame_out_of_range (na : NodeAnimation) (i : Nat) (trans0 : Matrix4d)
    (hi : na.FrameCount ≤ i) :
    (na.KeyFramePair i).time = -1 ∧
    (na.KeyFramePair i).trans = Matrix4d.Identity ∧
    (na.KeyFramePair i).reported = true ∧
    (na.KeyFramePair i).after = na ∧
    (na.KeyFrame i trans0).time = -1 ∧
    (na.KeyFrame i trans0).trans = trans0 ∧
    (na.KeyFrame i trans0).reported = true ∧
    (na.KeyFrame i trans0).after.keyFrames = na.keyFrames := by
  have hi' : na.keyFrames.length ≤ i := hi
  simp [NodeAnimation.KeyFramePair, NodeAnimation.KeyFrame, hi']

/-- C8 witness: index 0 on a new, empty animation. -/
theorem C8_keyFrame_out_of_range_witness :
    ((NodeAnimation.new "bone").KeyFramePair 0).time = -1 ∧
    ((NodeAnimation.new "bone").KeyFramePair 0).trans = Matrix4d.Identity ∧
    ((NodeAnimation.new "bone").KeyFramePair 0).reported = true ∧
    ((NodeAnimation.new "bone").KeyFramePair 0).after = NodeAnimation.new "bone" ∧
    ((NodeAnimation.new "bone").KeyFrame 0 Matrix4d.Zero).time = -1 ∧
    ((NodeAnimation.new "bone").KeyFrame 0 Matrix4d.Zero).trans = Matrix4d.Zero ∧
    ((NodeAnimation.new "bone").KeyFrame 0 Matrix4d.Zero).reported = true ∧
    ((NodeAnimation.new "bone").KeyFrame 0 Matrix4d.Zero).after.keyFrames
      = (NodeAnimation.new "bone").keyFrames :=
  C8_keyFrame_out_of_range (NodeAnimation.new "bone") 0 Matrix4d.Zero (Nat.le_refl 0)

theorem mapFind_eq_none_of {l : List (ℚ × Matrix4d)} {k : ℚ} (h : ∀ kv ∈ l, kv.1 ≠ k) :
    mapFind k l = none := by
  induction l with
  | nil => rfl
  | cons a rest ih =>
    have ha : a.1 ≠ k := h a (List.mem_cons_self _ _)
    simp [mapFind, ha, ih (fun kv hkv => h kv (List.mem_cons_of_mem _ hkv))]

theorem length_mapAssign (k : ℚ) (v : Matrix4d) {l : List (ℚ × Matrix4d)}
    (hs : KeysSorted l) :
    (mapAssign k v l).length = if (mapFind k l).isSome then l.length else l.length + 1 := by
  induction l with
  | nil => simp [mapAssign, mapFind]
  | cons a rest ih =>
    have hs' := List.pairwise_cons.mp hs
    unfold mapAssign
    split_ifs with h1 h2 h3 h4 h5
    · exfalso
      have hnone : mapFind k (a :: rest) = none := by
        apply mapFind_eq_none_of
        intro kv hkv
        rcases List.mem_cons.mp hkv with e | hin
        · rw [e]; exact ne_of_gt h1
        · exact ne_of_gt (lt_trans h1 (hs'.1 kv hin))
      simp [hnone] at h2
    · simp
    · simp
    · exfalso
      simp [mapFind, h3.symm] at h4
    · have hne : a.1 ≠ k := fun e => h3 e.symm
      have hsome : (mapFind k rest).isSome = true := by
        simpa [mapFind, hne] using h5
      simp [ih hs'.2, hsome]
    · have hne : a.1 ≠ k := fun e => h3 e.symm
      have hnone : (mapFind k rest).isSome = false := by
        simpa [mapFind, hne] using h5
      simp [ih hs'.2, hnone]

theorem mem_keys_mapAssign (k t : ℚ) (v : Matrix4d) (l : List (ℚ × Matrix4d)) :
    t ∈ (mapAssign k v l).map Prod.fst ↔ t = k ∨ t ∈ l.map Prod.fst := by
  induction l with
  | nil => simp [mapAssign]
  | cons a rest ih =>
    unfold mapAssign
    split_ifs with h1 h2
    · simp
    · simp [h2]
    · rw [List.map_cons, List.mem_cons, ih, List.map_cons, List.mem_cons]
      tauto

theorem NodeAnimation.mem_keys_addKeyFrames (na : NodeAnimation)
    (calls : List (ℚ × Matrix4d)) (t : ℚ) :
    t ∈ (na.addKeyFrames calls).keyFrames.map Prod.fst ↔
      t ∈ na.keyFrames.map Prod.fst ∨ t ∈ calls.map Prod.fst := by
  induction calls generalizing na with
  | nil => simp [NodeAnimation.addKeyFrames]
  | cons c cs ih =>
    rw [NodeAnimation.addKeyFrames_cons, ih]
    have : (na.AddKeyFrame c.1 c.2).keyFrames = mapAssign c.1 c.2 na.keyFrames := rfl
    rw [this, mem_keys_mapAssign, List.map_cons, List.mem_cons]
    tauto

theorem keys_nodup {l : List (ℚ × Matrix4d)} (hs : KeysSorted l) :
    (l.map Prod.fst).Nodup := by
  have h1 : (l.map Prod.fst).Pairwise (fun a b => a < b) :=
    List.pairwise_map.mpr hs
  exact h1.imp (fun h => ne_of_lt h)

/-- C9: `AddKeyFrame(time, transform)` on a reachable `NodeAnimation` inserts or
overwrites: afterwards the keyframe stored at `time` is `transform`, the lookup
at every other time is unchanged, and `FrameCount()` is unchanged when `time`
was stored before and one larger otherwise; after any sequence of calls on a
new object `FrameCount()` is the number of distinct times inserted. -/
theorem C9_addKeyFrame_insert_or_overwrite (na : NodeAnimation) (time : ℚ) (trans : Matrix4d)
    (hr : na.Reachable) :
    mapFind time (na.AddKeyFrame time trans).keyFrames = some trans ∧
    (∀ t, t ≠ time →
      mapFind t (na.AddKeyFrame time trans).keyFrames = mapFind t na.keyFrames) ∧
    (na.AddKeyFrame time trans).FrameCount =
      (if (mapFind time na.keyFrames).isSome then na.FrameCount else na.FrameCount + 1) ∧
    ∀ (name : String) (calls : List (ℚ × Matrix4d)),
      ((NodeAnimation.new name).addKeyFrames calls).FrameCount
        = (calls.map Prod.fst).dedup.length := by
  refine ⟨mapFind_mapAssign_self time trans _,
    fun t ht => mapFind_mapAssign_other time t trans _ ht,
    length_mapAssign time trans hr.inv.sorted, ?_⟩
  intro name calls
  have hreach := (NodeAnimation.Reachable.new name).addKeyFrames calls
  have hnd := keys_nodup hreach.inv.sorted
  have hset : (((NodeAnimation.new name).addKeyFrames calls).keyFrames.map Prod.fst).toFinset
      = (calls.map Prod.fst).toFinset := by
    ext t
    rw [List.mem_toFinset, List.mem_toFinset, NodeAnimation.mem_keys_addKeyFrames]
    simp [NodeAnimation.new]
  calc ((NodeAnimation.new name).addKeyFrames calls).FrameCount
      = (((NodeAnimation.new name).addKeyFrames calls).keyFrames.map Prod.fst).length := by
        simp [NodeAnimation.FrameCount]
    _ = (((NodeAnimation.new name).addKeyFrames calls).keyFrames.map Prod.fst).toFinset.card :=
        (List.toFinset_card_of_nodup hnd).symm
    _ = (calls.map Prod.fst).toFinset.card := by rw [hset]
    _ = (calls.map Prod.fst).dedup.length := List.card_toFinset _

/-- C9 witness: overwriting the keyframe at time 10 of the two-keyframe
animation. -/
theorem C9_addKeyFrame_insert_or_overwrite_witness :
    mapFind 10 (twoKeys.AddKeyFrame 10 Matrix4d.Identity).keyFrames = some Matrix4d.Identity ∧
    (∀ t, t ≠ 10 →
      mapFind t (twoKeys.AddKeyFrame 10 Matrix4d.Identity).keyFrames
        = mapFind t twoKeys.keyFrames) ∧
    (twoKeys.AddKeyFrame 10 Matrix4d.Identity).FrameCount =
      (if (mapFind 10 twoKeys.keyFrames).isSome then twoKeys.FrameCount
        else twoKeys.FrameCount + 1) ∧
    ∀ (name : String) (calls : List (ℚ × Matrix4d)),
      ((NodeAnimation.new name).addKeyFrames calls).FrameCount
        = (calls.map Prod.fst).dedup.length :=
  C9_addKeyFrame_insert_or_overwrite twoKeys 10 Matrix4d.Identity
    (((NodeAnimation.Reachable.new "bone").addKeyFrame 10 (posMatrix 10 0 0)).addKeyFrame 0
      (posMatrix 0 0 0))

/-- In exact arithmetic, calling `Scale(f)` twice leaves the same object as
calling `Scale(f*f)` once, each stored translation being the original one
multiplied by `f*f` on all three axes. -/
theorem NodeAnimation.scale_twice_exact (na : NodeAnimation) (f : ℚ) :
    (na.Scale f).Scale f = na.Scale (f * f) ∧
    ((na.Scale f).Scale f).keyFrames.map (fun kv => (kv.1, kv.2.Translation)) =
      na.keyFrames.map (fun kv =>
        (kv.1, (⟨kv.2.Translation.X * (f * f), kv.2.Translation.Y * (f * f),
          kv.2.Translation.Z * (f * f)⟩ : Vector3d))) := by
  constructor
  · simp only [NodeAnimation.Scale, List.map_map]
    congr 1
    apply List.map_congr_left
    intro kv _
    simp [Function.comp, Matrix4d.Translate, Matrix4d.Translation, Vector3d.mul, mul_assoc]
  · simp only [NodeAnimation.Scale, List.map_map]
    apply List.map_congr_left
    intro kv _
    simp [Function.comp, Matrix4d.Translate, Matrix4d.Translation, Vector3d.mul, mul_assoc]

/-- C11: `Scale(factor)` changes only translations: `FrameCount()`, `Length()`
and the key times are unchanged, and the keyframe at each position of the
store keeps its key and all matrix entries outside the translation column (the
rotation part among them), while its translation becomes the old translation
times `factor` on each axis. -/
theorem C11_scale_only_translations (na : NodeAnimation) (f : ℚ) :
    (na.Scale f).FrameCount = na.FrameCount ∧
    (na.Scale f).Length = na.Length ∧
    (na.Scale f).keyFrames.map Prod.fst = na.keyFrames.map Prod.fst ∧
    ∀ (i : Nat) (kv : ℚ × Matrix4d), na.keyFrames[i]? = some kv →
      (na.Scale f).keyFrames[i]? =
        some (kv.1, { kv.2 with m03 := kv.2.m03 * f, m13 := kv.2.m13 * f,
                                m23 := kv.2.m23 * f }) := by
  refine ⟨by simp [NodeAnimation.Scale, NodeAnimation.FrameCount], rfl, ?_, ?_⟩
  · simp [NodeAnimation.Scale, Function.comp]
  · intro i kv h
    simp [NodeAnimation.Scale, h, Matrix4d.Translate, Matrix4d.Translation, Vector3d.mul]

/-! ### The node container -/

theorem strFind_strAssign_self {β : Type} (k : String) (v : β) (l : List (String × β)) :
    strFind k (strAssign k v l) = some v := by
  induction l with
  | nil => simp [strAssign, strFind]
  | cons a rest ih =>
    unfold strAssign
    split_ifs with h1 h2
    · simp [strFind]
    · simp [strFind]
    · have : a.1 ≠ k := fun e => h2 e.symm
      simp [strFind, this, ih]

theorem strFind_strAssign_other {β : Type} (k t : String) (v : β) (l : List (String × β))
    (h : t ≠ k) : strFind t (strAssign k v l) = strFind t l := by
  induction l with
  | nil => simp [strAssign, strFind, h.symm]
  | cons a rest ih =>
    unfold strAssign
    split_ifs with h1 h2
    · simp [strFind, h.symm]
    · have : a.1 ≠ t := fun e => h (e.symm.trans h2.symm)
      simp [strFind, h.symm, this]
    · simp [strFind, ih]

theorem mem_strAssign {β : Type} {k : String} {v : β} {l : List (String × β)}
    {kv : String × β} (h : kv ∈ strAssign k v l) : kv = (k, v) ∨ kv ∈ l := by
  induction l with
  | nil => simp [strAssign] at h; exact Or.inl h
  | cons a rest ih =>
    unfold strAssign at h
    split_ifs at h with h1 h2
    · rcases List.mem_cons.mp h with h | h
      · exact Or.inl h
      · exact Or.inr h
    · rcases List.mem_cons.mp h with h | h
      · exact Or.inl h
      · exact Or.inr (List.mem_cons_of_mem _ h)
    · rcases List.mem_cons.mp h with h | h
      · exact Or.inr (h ▸ List.mem_cons_self _ _)
      · rcases ih h with h | h
        · exact Or.inl h
        · exact Or.inr (List.mem_cons_of_mem _ h)

theorem strSorted_strAssign {β : Type} (k : String) (v : β) (l : List (String × β))
    (hs : StrSorted l) : StrSorted (strAssign k v l) := by
  induction l with
  | nil => simp [strAssign, StrSorted]
  | cons a rest ih =>
    have hs' := List.pairwise_cons.mp hs
    unfold strAssign
    split_ifs with h1 h2
    · refine List.pairwise_cons.mpr ⟨?_, hs⟩
      intro b hb
      rcases List.mem_cons.mp hb with hb | hb
      · simpa [hb] using h1
      · exact lt_trans h1 (hs'.1 b hb)
    · refine List.pairwise_cons.mpr ⟨?_, hs'.2⟩
      intro b hb
      simpa [h2] using hs'.1 b hb
    · refine List.pairwise_cons.mpr ⟨?_, ih hs'.2⟩
      intro b hb
      rcases mem_strAssign hb with hb | hb
      · have : a.1 < k := lt_of_le_of_ne (not_lt.mp h1) (fun e => h2 e.symm)
        simpa [hb] using this
      · exact hs'.1 b hb

theorem strFind_eq_some_iff {β : Type} {l : List (String × β)} (hs : StrSorted l)
    (k : String) (v : β) : strFind k l = some v ↔ (k, v) ∈ l := by
  induction l with
  | nil => simp [strFind]
  | cons a rest ih =>
    have hs' := List.pairwise_cons.mp hs
    unfold strFind
    split_ifs with h1
    · constructor
      · intro h
        have : a = (k, v) := by
          cases a; simp at h1 h; simp [h1, h]
        exact this ▸ List.mem_cons_self _ _
      · intro h
        rcases List.mem_cons.mp h with h | h
        · simp [← h]
        · have := hs'.1 _ h
          simp [h1] at this
    · rw [ih hs'.2]
      constructor
      · exact fun h => List.mem_cons_of_mem _ h
      · intro h
        rcases List.mem_cons.mp h with h | h
        · exact absurd (by simp [← h]) h1
        · exact h

theorem strFind_isSome_iff {β : Type} (l : List (String × β)) (k : String) :
    (strFind k l).isSome = true ↔ k ∈ l.map Prod.fst := by
  induction l with
  | nil => simp [strFind]
  | cons a rest ih =>
    unfold strFind
    split_ifs with h1
    · simp [h1]
    · rw [ih, List.map_cons, List.mem_cons]
      constructor
      · exact fun h => Or.inr h
      · intro h
        rcases h with h | h
        · exact absurd h.symm h1
        · exact h

theorem length_strAssign {β : Type} (k : String) (v : β) {l : List (String × β)}
    (hs : StrSorted l) :
    (strAssign k v l).length = if (strFind k l).isSome then l.length else l.length + 1 := by
  induction l with
  | nil => simp [strAssign, strFind]
  | cons a rest ih =>
    have hs' := List.pairwise_cons.mp hs
    by_cases h1 : k < a.1
    · have hnot : ¬ (k ∈ (a :: rest).map Prod.fst) := by
        intro hk
        obtain ⟨b, hb, e⟩ := List.mem_map.mp hk
        rcases List.mem_cons.mp hb with e2 | hin
        · rw [e2] at e; rw [e] at h1; exact lt_irrefl _ h1
        · have := lt_trans h1 (hs'.1 b hin)
          rw [e] at this
          exact lt_irrefl _ this
      have hnone : (strFind k (a :: rest)).isSome = false := by
        rw [Bool.eq_false_iff]
        exact fun h => hnot ((strFind_isSome_iff _ _).mp h)
      simp [strAssign, h1, hnone]
    · by_cases h2 : k = a.1
      · simp [strAssign, h1, h2, strFind]
      · have hne : a.1 ≠ k := fun e => h2 e.symm
        have hrest := ih hs'.2
        simp only [strAssign, h1, h2, if_false, List.length_cons, hrest, strFind, hne]
        split_ifs <;> rfl

theorem mem_keys_strAssign {β : Type} (k t : String) (v : β) (l : List (String × β)) :
    t ∈ (strAssign k v l).map Prod.fst ↔ t = k ∨ t ∈ l.map Prod.fst := by
  induction l with
  | nil => simp [strAssign]
  | cons a rest ih =>
    unfold strAssign
    split_ifs with h1 h2
    · simp
    · simp [h2]
    · rw [List.map_cons, List.mem_cons, ih, List.map_cons, List.mem_cons]
      tauto

theorem strKeys_nodup {β : Type} {l : List (String × β)} (hs : StrSorted l) :
    (l.map Prod.fst).Nodup := by
  have h1 : (l.map Prod.fst).Pairwise (fun a b => a < b) := List.pairwise_map.mpr hs
  exact h1.imp (fun h => ne_of_lt h)

/-! ### Clip-level `AddKeyFrame` -/

/-- What one `AddKeyFrame(node, t, m)` does to a clip whose entry for `node` is
not a null pointer. -/
theorem SkeletonAnimation.addKeyFrame_spec (sa : SkeletonAnimation) (node : String) (t : ℚ)
    (m : Matrix4d) (hnn : strFind node sa.animations ≠ some none) :
    ∃ sa1, sa.AddKeyFrame node t m = some sa1 ∧
      sa1.name = sa.name ∧
      sa1.length = (if t > sa.length then t else sa.length) ∧
      strFind node sa1.animations = some (some ((sa.nodeOrNew node).AddKeyFrame t m)) ∧
      (∀ n, n ≠ node → strFind n sa1.animations = strFind n sa.animations) ∧
      (StrSorted sa.animations → StrSorted sa1.animations) ∧
      (∀ n, n ∈ sa1.animations.map Prod.fst ↔ n = node ∨ n ∈ sa.animations.map Prod.fst) := by
  cases hf : strFind node sa.animations with
  | none =>
    have hidx : strIndex node (strAssign node (some (NodeAnimation.new node)) sa.animations)
        = (some (NodeAnimation.new node),
            strAssign node (some (NodeAnimation.new node)) sa.animations) := by
      simp [strIndex, strFind_strAssign_self]
    refine ⟨{ sa with
        length := if t > sa.length then t else sa.length
        animations := strAssign node (some ((NodeAnimation.new node).AddKeyFrame t m))
          (strAssign node (some (NodeAnimation.new node)) sa.animations) },
      by simp [SkeletonAnimation.AddKeyFrame, hf, hidx], rfl, rfl, ?_, ?_, ?_, ?_⟩
    · simp [strFind_strAssign_self, SkeletonAnimation.nodeOrNew, hf]
    · intro n hn
      simp [strFind_strAssign_other _ _ _ _ hn]
    · intro hs
      exact strSorted_strAssign _ _ _ (strSorted_strAssign _ _ _ hs)
    · intro n
      simp only [mem_keys_strAssign]
      tauto
  | some v =>
    cases v with
    | none => exact absurd hf hnn
    | some na =>
      have hidx : strIndex node sa.animations = (some na, sa.animations) := by
        simp [strIndex, hf]
      refine ⟨{ sa with
          length := if t > sa.length then t else sa.length
          animations := strAssign node (some (na.AddKeyFrame t m)) sa.animations },
        by simp [SkeletonAnimation.AddKeyFrame, hf, hidx], rfl, rfl, ?_, ?_, ?_, ?_⟩
      · simp [strFind_strAssign_self, SkeletonAnimation.nodeOrNew, hf]
      · intro n hn
        simp [strFind_strAssign_other _ _ _ _ hn]
      · intro hs
        exact strSorted_strAssign _ _ _ hs
      · intro n
        exact mem_keys_strAssign _ _ _ _

theorem SkeletonAnimation.nodeOrNew_reachable {sa : SkeletonAnimation} (h : sa.Inv)
    (n : String) : (sa.nodeOrNew n).Reachable ∧ (sa.nodeOrNew n).length ≤ sa.length := by
  unfold SkeletonAnimation.nodeOrNew
  cases hf : strFind n sa.animations with
  | none => exact ⟨NodeAnimation.Reachable.new n, h.nonneg⟩
  | some v =>
    cases v with
    | none => exact ⟨NodeAnimation.Reachable.new n, h.nonneg⟩
    | some na => exact ⟨(h.nodes n na hf).1, h.bound n na hf⟩

theorem NodeAnimation.addKeyFrame_keyFrames_ne_nil (na : NodeAnimation) (t : ℚ) (m : Matrix4d) :
    (na.AddKeyFrame t m).keyFrames ≠ [] := by
  intro e
  have := mapFind_mapAssign_self t m na.keyFrames
  have e' : mapAssign t m na.keyFrames = [] := e
  rw [e'] at this
  simp [mapFind] at this

/-- A clip-level `AddKeyFrame` keeps the clip invariant. -/
theorem SkeletonAnimation.Inv.afterAddKeyFrame {sa sa1 : SkeletonAnimation} (h : sa.Inv)
    (node : String) (t : ℚ) (m : Matrix4d) (he : sa.AddKeyFrame node t m = some sa1) :
    sa1.Inv := by
  obtain ⟨sa2, he2, _, hlen, hself, hother, hsorted, _⟩ :=
    SkeletonAnimation.addKeyFrame_spec sa node t m (h.nonnull node)
  rw [he] at he2
  obtain rfl : sa1 = sa2 := Option.some.inj he2
  obtain ⟨hreach, hle⟩ := SkeletonAnimation.nodeOrNew_reachable h node
  have hnew : ((sa.nodeOrNew node).AddKeyFrame t m).length =
      (if t > (sa.nodeOrNew node).length then t else (sa.nodeOrNew node).length) := rfl
  have hfind : ∀ n v, strFind n sa1.animations = some v →
      (n = node ∧ v = some ((sa.nodeOrNew node).AddKeyFrame t m)) ∨
      (n ≠ node ∧ strFind n sa.animations = some v) := by
    intro n v hv
    by_cases hn : n = node
    · subst hn
      rw [hself] at hv
      exact Or.inl ⟨rfl, (Option.some.inj hv).symm⟩
    · rw [hother n hn] at hv
      exact Or.inr ⟨hn, hv⟩
  refine ⟨hsorted h.sorted, ?_, ?_, ?_, ?_, ?_⟩
  · intro n hv
    rcases hfind n none hv with ⟨_, hv'⟩ | ⟨_, hv'⟩
    · exact Option.noConfusion hv'
    · exact h.nonnull n hv'
  · intro n na hv
    rcases hfind n (some na) hv with ⟨_, hv'⟩ | ⟨_, hv'⟩
    · obtain rfl : na = (sa.nodeOrNew node).AddKeyFrame t m := Option.some.inj hv'
      exact ⟨hreach.addKeyFrame t m, NodeAnimation.addKeyFrame_keyFrames_ne_nil _ t m⟩
    · exact h.nodes n na hv'
  · rw [hlen]
    split_ifs with h1
    · exact le_of_lt (lt_of_le_of_lt h.nonneg h1)
    · exact h.nonneg
  · intro n na hv
    rw [hlen]
    rcases hfind n (some na) hv with ⟨_, hv'⟩ | ⟨_, hv'⟩
    · obtain rfl : na = (sa.nodeOrNew node).AddKeyFrame t m := Option.some.inj hv'
      rw [hnew]
      split_ifs <;> linarith
    · have := h.bound n na hv'
      split_ifs with h1
      · exact le_of_lt (lt_of_le_of_lt this h1)
      · exact this
  · rw [hlen]
    split_ifs with h1
    · intro _
      refine ⟨node, _, hself, ?_⟩
      rw [hnew, if_pos (lt_of_le_of_lt hle h1)]
    · intro hpos
      obtain ⟨n, na, hv, e⟩ := h.attained hpos
      by_cases hn : n = node
      · subst hn
        refine ⟨n, _, hself, ?_⟩
        have hbase : sa.nodeOrNew n = na := by
          simp [SkeletonAnimation.nodeOrNew, hv]
        rw [hnew, hbase, e, if_neg h1]
      · exact ⟨n, na, (hother n hn).trans hv, e⟩

theorem SkeletonAnimation.inv_new (name : String) : (SkeletonAnimation.new name).Inv :=
  ⟨List.Pairwise.nil, fun n h => by simp [SkeletonAnimation.new, strFind] at h,
    fun n na h => by simp [SkeletonAnimation.new, strFind] at h, le_refl _,
    fun n na h => by simp [SkeletonAnimation.new, strFind] at h,
    fun h => absurd h (lt_irrefl _)⟩

theorem callsFor_cons_self (c : String × ℚ × Matrix4d) (cs : List (String × ℚ × Matrix4d)) :
    callsFor c.1 (c :: cs) = c.2 :: callsFor c.1 cs := by
  simp [callsFor, List.filter_cons]

theorem callsFor_cons_other (n : String) (c : String × ℚ × Matrix4d)
    (cs : List (String × ℚ × Matrix4d)) (h : n ≠ c.1) :
    callsFor n (c :: cs) = callsFor n cs := by
  have : ¬ c.1 = n := fun e => h e.symm
  simp [callsFor, List.filter_cons, this]

theorem callsFor_eq_nil (n : String) (cs : List (String × ℚ × Matrix4d))
    (h : n ∉ cs.map Prod.fst) : callsFor n cs = [] := by
  simp only [callsFor, List.map_eq_nil_iff, List.filter_eq_nil_iff]
  intro c hc e
  exact h (List.mem_map.mpr ⟨c, hc, by simpa using e⟩)

theorem SkeletonAnimation.nodeOrNew_of_find {sa : SkeletonAnimation} {n : String}
    {na : NodeAnimation} (h : strFind n sa.animations = some (some na)) :
    sa.nodeOrNew n = na := by
  simp [SkeletonAnimation.nodeOrNew, h]

theorem SkeletonAnimation.nodeOrNew_congr {sa sa1 : SkeletonAnimation} {n : String}
    (h : strFind n sa1.animations = strFind n sa.animations) :
    sa1.nodeOrNew n = sa.nodeOrNew n := by
  simp [SkeletonAnimation.nodeOrNew, h]

/-- What a sequence of clip-level `AddKeyFrame` calls does to a clip that
satisfies the invariant. -/
theorem SkeletonAnimation.addKeyFrames_spec (calls : List (String × ℚ × Matrix4d)) :
    ∀ (sa : SkeletonAnimation), sa.Inv →
    ∃ sa1, sa.addKeyFrames calls = some sa1 ∧ sa1.Inv ∧
      (∀ n, n ∈ sa1.animations.map Prod.fst ↔
        n ∈ sa.animations.map Prod.fst ∨ n ∈ calls.map Prod.fst) ∧
      (∀ n, n ∈ calls.map Prod.fst →
        strFind n sa1.animations =
          some (some ((sa.nodeOrNew n).addKeyFrames (callsFor n calls)))) ∧
      (∀ n, n ∉ calls.map Prod.fst → strFind n sa1.animations = strFind n sa.animations) := by
  induction calls with
  | nil =>
    intro sa h
    exact ⟨sa, rfl, h, by simp, by simp, fun _ _ => rfl⟩
  | cons c cs ih =>
    intro sa h
    obtain ⟨sa1, he, _, _, hself, hother, _, hkeys⟩ :=
      SkeletonAnimation.addKeyFrame_spec sa c.1 c.2.1 c.2.2 (h.nonnull c.1)
    have hinv1 : sa1.Inv := h.afterAddKeyFrame c.1 c.2.1 c.2.2 he
    obtain ⟨sa2, he2, hinv2, hkeys2, hin2, hout2⟩ := ih sa1 hinv1
    have hrun : sa.addKeyFrames (c :: cs) = some sa2 := by
      simp [SkeletonAnimation.addKeyFrames, he, he2]
    refine ⟨sa2, hrun, hinv2, ?_, ?_, ?_⟩
    · intro n
      rw [hkeys2, hkeys, List.map_cons, List.mem_cons]
      tauto
    · intro n hn
      by_cases hcs : n ∈ cs.map Prod.fst
      · rw [hin2 n hcs]
        by_cases hnc : n = c.1
        · subst hnc
          rw [SkeletonAnimation.nodeOrNew_of_find hself, callsFor_cons_self,
            NodeAnimation.addKeyFrames_cons]
        · rw [SkeletonAnimation.nodeOrNew_congr (hother n hnc), callsFor_cons_other n c cs hnc]
      · have hnc : n = c.1 := by
          rw [List.map_cons] at hn
          rcases List.mem_cons.mp hn with e | e
          · exact e
          · exact absurd e hcs
        subst hnc
        rw [hout2 _ hcs, hself, callsFor_cons_self, callsFor_eq_nil _ cs hcs]
        rfl
    · intro n hn
      have hnc : n ≠ c.1 := fun e => hn (by simp [e])
      have hcs : n ∉ cs.map Prod.fst := fun e => hn (by
        rw [List.map_cons]; exact List.mem_cons_of_mem _ e)
      rw [hout2 n hcs, hother n hnc]

/-- The loop of `Scale`, when it returns, has scaled the node stored under each
name and kept the names. -/
theorem SkeletonAnimation.strFind_scaleNodes (s : ℚ) :
    ∀ (l r : List (String × Option NodeAnimation)), SkeletonAnimation.scaleNodes s l = some r →
      (∀ n, strFind n r = (strFind n l).map (fun v => v.map (fun na => na.Scale s))) ∧
      r.map Prod.fst = l.map Prod.fst := by
  intro l
  induction l with
  | nil =>
    intro r h
    simp [SkeletonAnimation.scaleNodes] at h
    subst h
    simp [strFind]
  | cons a rest ih =>
    intro r h
    obtain ⟨n0, v0⟩ := a
    cases v0 with
    | none => simp [SkeletonAnimation.scaleNodes] at h
    | some na =>
      simp only [SkeletonAnimation.scaleNodes, Option.map_eq_some'] at h
      obtain ⟨r1, hr1, e⟩ := h
      subst e
      obtain ⟨h1, h2⟩ := ih r1 hr1
      refine ⟨?_, by simp [h2]⟩
      intro n
      by_cases hn : n0 = n
      · simp [strFind, hn]
      · simp [strFind, hn, h1]

/-- A clip-level `Scale` that returns keeps the clip invariant. -/
theorem SkeletonAnimation.Inv.afterScale {sa sa1 : SkeletonAnimation} (h : sa.Inv) (s : ℚ)
    (he : sa.Scale s = some sa1) : sa1.Inv := by
  simp only [SkeletonAnimation.Scale, Option.map_eq_some'] at he
  obtain ⟨r, hr, e⟩ := he
  subst e
  obtain ⟨hfind, hkeys⟩ := SkeletonAnimation.strFind_scaleNodes s sa.animations r hr
  have hback : ∀ n na1, strFind n r = some (some na1) →
      ∃ na, strFind n sa.animations = some (some na) ∧ na1 = na.Scale s := by
    intro n na1 hv
    rw [hfind n] at hv
    cases hf : strFind n sa.animations with
    | none => simp [hf] at hv
    | some v =>
      cases v with
      | none => simp [hf] at hv
      | some na =>
        simp [hf] at hv
        exact ⟨na, rfl, hv.symm⟩
  refine ⟨?_, ?_, ?_, h.nonneg, ?_, ?_⟩
  · have h1 : (sa.animations.map Prod.fst).Pairwise (fun a b => a < b) :=
      List.pairwise_map.mpr h.sorted
    rw [← hkeys] at h1
    exact List.pairwise_map.mp h1
  · intro n hv
    have hv' : strFind n r = some none := hv
    rw [hfind n] at hv'
    cases hf : strFind n sa.animations with
    | none => simp [hf] at hv'
    | some v =>
      cases v with
      | none => exact h.nonnull n hf
      | some na => simp [hf] at hv'
  · intro n na1 hv
    obtain ⟨na, hna, e⟩ := hback n na1 hv
    subst e
    obtain ⟨h1, h2⟩ := h.nodes n na hna
    refine ⟨h1.scale s, ?_⟩
    intro e
    exact h2 (List.map_eq_nil_iff.mp e)
  · intro n na1 hv
    obtain ⟨na, hna, e⟩ := hback n na1 hv
    subst e
    exact h.bound n na hna
  · intro hpos
    obtain ⟨n, na, hna, e⟩ := h.attained hpos
    refine ⟨n, na.Scale s, ?_, e⟩
    show strFind n r = some (some (na.Scale s))
    rw [hfind n, hna]
    rfl

/-- Every reachable clip satisfies the clip invariant. -/
theorem SkeletonAnimation.Reachable.clipInv {sa : SkeletonAnimation} (h : sa.Reachable) :
    sa.Inv := by
  induction h with
  | new n => exact SkeletonAnimation.inv_new n
  | setName n _ ih =>
    exact ⟨ih.sorted, ih.nonnull, ih.nodes, ih.nonneg, ih.bound, ih.attained⟩
  | addKeyFrame node t m _ he ih => exact ih.afterAddKeyFrame node t m he
  | scale s _ he ih => exact ih.afterScale s he

/-- The maximum of a list of lengths, 0 for the empty list. -/
theorem foldr_max_eq {l : List ℚ} {x : ℚ} (h0 : 0 ≤ x) (hle : ∀ a ∈ l, a ≤ x)
    (hatt : 0 < x → x ∈ l) : l.foldr max 0 = x := by
  have hub : ∀ (l : List ℚ), (∀ a ∈ l, a ≤ x) → l.foldr max 0 ≤ x := by
    intro l
    induction l with
    | nil => intro _; exact h0
    | cons a rest ih =>
      intro hl
      exact max_le (hl a (List.mem_cons_self _ _))
        (ih (fun b hb => hl b (List.mem_cons_of_mem _ hb)))
  have hlb : ∀ (l : List ℚ), 0 ≤ l.foldr max 0 ∧ ∀ a ∈ l, a ≤ l.foldr max 0 := by
    intro l
    induction l with
    | nil => exact ⟨le_refl _, fun a ha => by simp at ha⟩
    | cons a rest ih =>
      refine ⟨le_trans ih.1 (le_max_right _ _), ?_⟩
      intro b hb
      rcases List.mem_cons.mp hb with e | hin
      · rw [e]; exact le_max_left _ _
      · exact le_trans (ih.2 b hin) (le_max_right _ _)
  apply le_antisymm (hub l hle)
  rcases lt_or_eq_of_le h0 with hpos | hz
  · exact (hlb l).2 x (hatt hpos)
  · rw [← hz]; exact (hlb l).1

/-- C12: after any sequence of `SkeletonAnimation.AddKeyFrame` calls on a new
clip (length 0, no nodes) every call has returned, no entry of the node map is
null, and the clip's `Length()` equals the maximum over all contained node
animations of that node's `Length()`, which is 0 when there are no nodes: it
bounds every node's length and, when there is a node, is the length of one. -/
theorem C12_clip_length_is_max_node_length (name : String)
    (calls : List (String × ℚ × Matrix4d)) :
    ∃ sa, (SkeletonAnimation.new name).addKeyFrames calls = some sa ∧
      (∀ n, strFind n sa.animations ≠ some none) ∧
      sa.Length = (nodeLengths sa).foldr max 0 ∧
      (∀ n na, strFind n sa.animations = some (some na) → na.Length ≤ sa.Length) ∧
      (sa.NodeCount = 0 → sa.Length = 0) ∧
      (0 < sa.NodeCount →
        ∃ n na, strFind n sa.animations = some (some na) ∧ na.Length = sa.Length) := by
  obtain ⟨sa, he, hinv, _, _, _⟩ :=
    SkeletonAnimation.addKeyFrames_spec calls (SkeletonAnimation.new name)
      (SkeletonAnimation.inv_new name)
  have hmem : ∀ a, a ∈ nodeLengths sa ↔
      ∃ n na, strFind n sa.animations = some (some na) ∧ na.length = a := by
    intro a
    simp only [nodeLengths, List.mem_map, List.mem_filterMap]
    constructor
    · rintro ⟨na, ⟨e, he1, he2⟩, rfl⟩
      refine ⟨e.1, na, ?_, rfl⟩
      rw [strFind_eq_some_iff hinv.sorted]
      rw [← he2]
      exact he1
    · rintro ⟨n, na, hf, rfl⟩
      exact ⟨na, ⟨(n, some na), (strFind_eq_some_iff hinv.sorted _ _).mp hf, rfl⟩, rfl⟩
  refine ⟨sa, he, hinv.nonnull, ?_, hinv.bound, ?_, ?_⟩
  · symm
    apply foldr_max_eq hinv.nonneg
    · intro a ha
      obtain ⟨n, na, hf, e⟩ := (hmem a).mp ha
      rw [← e]
      exact hinv.bound n na hf
    · intro hpos
      obtain ⟨n, na, hf, e⟩ := hinv.attained hpos
      exact (hmem _).mpr ⟨n, na, hf, e⟩
  · intro hcount
    have hnil : sa.animations = [] := List.length_eq_zero.mp hcount
    rcases lt_or_eq_of_le hinv.nonneg with hpos | hz
    · obtain ⟨n, na, hf, _⟩ := hinv.attained hpos
      rw [hnil] at hf
      simp [strFind] at hf
    · exact hz.symm
  · intro hcount
    rcases lt_or_eq_of_le hinv.nonneg with hpos | hz
    · exact hinv.attained hpos
    · have hne : sa.animations ≠ [] := by
        intro e
        simp [SkeletonAnimation.NodeCount, e] at hcount
      obtain ⟨e, rest, hcons⟩ := List.exists_cons_of_ne_nil hne
      have hfe : strFind e.1 sa.animations = some e.2 := by
        rw [hcons]; simp [strFind]
      cases hv : e.2 with
      | none => exact absurd (hv ▸ hfe) (hinv.nonnull e.1)
      | some na =>
        rw [hv] at hfe
        refine ⟨e.1, na, hfe, ?_⟩
        have h1 := hinv.bound e.1 na hfe
        have h2 := (hinv.nodes e.1 na hfe).1.inv.nonneg
        show na.length = sa.length
        rw [← hz] at h1 ⊢
        exact le_antisymm h1 h2

/-- C13: after any sequence of `SkeletonAnimation.AddKeyFrame(node, time,
transform)` calls on a new clip every call has returned, `HasNode(n)` is true
exactly for the names `n` that appeared in some call, `NodeCount()` is the
number of distinct names used, and the node animation stored under each name is
the one obtained from a new `NodeAnimation` of that name by the keyframes added
under that name, in call order; on any reachable clip one more call returns and
leaves the node animation stored under every other name as it was. -/
theorem C13_clip_nodes_after_addKeyFrames (name : String)
    (calls : List (String × ℚ × Matrix4d)) :
    (∃ sa, (SkeletonAnimation.new name).addKeyFrames calls = some sa ∧
      (∀ n, sa.HasNode n = true ↔ n ∈ calls.map Prod.fst) ∧
      sa.NodeCount = (calls.map Prod.fst).dedup.length ∧
      (∀ n, n ∈ calls.map Prod.fst →
        strFind n sa.animations =
          some (some ((NodeAnimation.new n).addKeyFrames (callsFor n calls))))) ∧
    (∀ (sa : SkeletonAnimation) (node : String) (t : ℚ) (m : Matrix4d), sa.Reachable →
      ∃ sa1, sa.AddKeyFrame node t m = some sa1 ∧
        ∀ n, n ≠ node → strFind n sa1.animations = strFind n sa.animations) := by
  constructor
  · obtain ⟨sa, he, hinv, hkeys, hin, _⟩ :=
      SkeletonAnimation.addKeyFrames_spec calls (SkeletonAnimation.new name)
        (SkeletonAnimation.inv_new name)
    have hkeys' : ∀ n, n ∈ sa.animations.map Prod.fst ↔ n ∈ calls.map Prod.fst := by
      intro n
      rw [hkeys n]
      simp [SkeletonAnimation.new]
    refine ⟨sa, he, ?_, ?_, ?_⟩
    · intro n
      rw [← hkeys' n]
      exact strFind_isSome_iff _ _
    · have hset : (sa.animations.map Prod.fst).toFinset = (calls.map Prod.fst).toFinset := by
        ext n
        rw [List.mem_toFinset, List.mem_toFinset, hkeys' n]
      calc sa.NodeCount = (sa.animations.map Prod.fst).length := by
            simp [SkeletonAnimation.NodeCount]
        _ = (sa.animations.map Prod.fst).toFinset.card :=
            (List.toFinset_card_of_nodup (strKeys_nodup hinv.sorted)).symm
        _ = (calls.map Prod.fst).toFinset.card := by rw [hset]
        _ = (calls.map Prod.fst).dedup.length := List.card_toFinset _
    · intro n hn
      rw [hin n hn]
      simp [SkeletonAnimation.nodeOrNew, SkeletonAnimation.new, strFind]
  · intro sa node t m hr
    obtain ⟨sa1, he, _, _, _, hother, _, _⟩ :=
      SkeletonAnimation.addKeyFrame_spec sa node t m (hr.clipInv.nonnull node)
    exact ⟨sa1, he, hother⟩

/-! ### Pose queries -/

theorem strFind_eq_none_of_lt {β : Type} {l : List (String × β)} {k : String}
    (h : ∀ kv ∈ l, k < kv.1) : strFind k l = none := by
  induction l with
  | nil => rfl
  | cons a rest ih =>
    have ha : a.1 ≠ k := fun e => lt_irrefl k (e ▸ h a (List.mem_cons_self _ _))
    simp [strFind, ha, ih (fun kv hkv => h kv (List.mem_cons_of_mem _ hkv))]

/-- When the loop of `PoseAt` returns, the mapping holds under each node name the
value of that node's `FrameAt`, and is otherwise as before the loop. -/
theorem SkeletonAnimation.poseLoop_ok (M : MathLib) (fuel : Nat) (time : ℚ) (loop : Bool) :
    ∀ (l : List (String × Option NodeAnimation)) (pose pose1 : List (String × Matrix4d)),
      StrSorted l →
      SkeletonAnimation.poseLoop M fuel time loop l pose = .ok pose1 →
      (∀ n na, strFind n l = some (some na) →
        strFind n pose1 = (na.FrameAt M fuel time loop).value? ∧
        ((na.FrameAt M fuel time loop).value?).isSome = true) ∧
      (∀ n, strFind n l = none → strFind n pose1 = strFind n pose) := by
  intro l
  induction l with
  | nil =>
    intro pose pose1 _ h
    simp only [SkeletonAnimation.poseLoop, PoseResult.ok.injEq] at h
    subst h
    exact ⟨fun n na hf => by simp [strFind] at hf, fun _ _ => rfl⟩
  | cons a rest ih =>
    intro pose pose1 hs h
    have hs' := List.pairwise_cons.mp hs
    obtain ⟨n0, v0⟩ := a
    have hn0 : strFind n0 rest = none := strFind_eq_none_of_lt hs'.1
    cases v0 with
    | none => simp [SkeletonAnimation.poseLoop] at h
    | some na0 =>
      have key : ∀ m, (na0.FrameAt M fuel time loop).value? = some m →
          SkeletonAnimation.poseLoop M fuel time loop rest (strAssign n0 m pose) = .ok pose1 →
          (∀ n na, strFind n ((n0, some na0) :: rest) = some (some na) →
            strFind n pose1 = (na.FrameAt M fuel time loop).value? ∧
            ((na.FrameAt M fuel time loop).value?).isSome = true) ∧
          (∀ n, strFind n ((n0, some na0) :: rest) = none →
            strFind n pose1 = strFind n pose) := by
        intro m hm hrest
        obtain ⟨h1, h2⟩ := ih (strAssign n0 m pose) pose1 hs'.2 hrest
        constructor
        · intro n na hf
          by_cases hn : n0 = n
          · subst hn
            simp only [strFind, if_true, Option.some.injEq] at hf
            subst hf
            rw [h2 n0 hn0, strFind_strAssign_self, hm]
            exact ⟨rfl, rfl⟩
          · simp only [strFind, hn, if_false] at hf
            exact h1 n na hf
        · intro n hf
          by_cases hn : n0 = n
          · simp [strFind, hn] at hf
          · simp only [strFind, hn, if_false] at hf
            rw [h2 n hf, strFind_strAssign_other _ _ _ _ (fun e => hn e.symm)]
      cases hfa : na0.FrameAt M fuel time loop with
      | ok m =>
        simp only [SkeletonAnimation.poseLoop, hfa] at h
        exact key m (by simp [hfa, NodeAnimation.FrameResult.value?]) h
      | invalidTimeRange m =>
        simp only [SkeletonAnimation.poseLoop, hfa] at h
        exact key m (by simp [hfa, NodeAnimation.FrameResult.value?]) h
      | pastTheEnd => simp [SkeletonAnimation.poseLoop, hfa] at h
      | noReturn => simp [SkeletonAnimation.poseLoop, hfa] at h

/-- The loop of `PoseAt` returns when no entry is null and every node's `FrameAt`
returns a value. -/
theorem SkeletonAnimation.poseLoop_returns (M : MathLib) (fuel : Nat) (time : ℚ)
    (loop : Bool) :
    ∀ (l : List (String × Option NodeAnimation)) (pose : List (String × Matrix4d)),
      (∀ e ∈ l, ∃ na, e.2 = some na ∧ ((na.FrameAt M fuel time loop).value?).isSome = true) →
      ∃ pose1, SkeletonAnimation.poseLoop M fuel time loop l pose = .ok pose1 := by
  intro l
  induction l with
  | nil => intro pose _; exact ⟨pose, rfl⟩
  | cons a rest ih =>
    intro pose h
    obtain ⟨n0, v0⟩ := a
    obtain ⟨na, hna, hval⟩ := h (n0, v0) (List.mem_cons_self _ _)
    have hna' : v0 = some na := hna
    subst hna'
    have hrest := fun p => ih p (fun e he => h e (List.mem_cons_of_mem _ he))
    cases hfa : na.FrameAt M fuel time loop with
    | ok m => simpa [SkeletonAnimation.poseLoop, hfa] using hrest (strAssign n0 m pose)
    | invalidTimeRange m =>
      simpa [SkeletonAnimation.poseLoop, hfa] using hrest (strAssign n0 m pose)
    | pastTheEnd => simp [hfa, NodeAnimation.FrameResult.value?] at hval
    | noReturn => simp [hfa, NodeAnimation.FrameResult.value?] at hval

theorem SkeletonAnimation.nodePoseAt_of_find (M : MathLib) (fuel : Nat)
    (sa : SkeletonAnimation) (n : String) (time : ℚ) (loop : Bool) {na : NodeAnimation}
    (h : strFind n sa.animations = some (some na)) :
    sa.NodePoseAt M fuel n time loop =
      { result := na.FrameAt M fuel time loop, after := sa } := by
  simp [SkeletonAnimation.NodePoseAt, strIndex, h]

/-- On a reachable clip, `PoseAt(time, loop)` returns a mapping as soon as
every node's `FrameAt(time, loop)` returns; a returned mapping has a value
exactly under the node names of the clip, and the value under each node `n` is
the value returned by that node's `FrameAt(time, loop)`, which is also what
`NodePoseAt(n, time, loop)` returns (leaving the clip as it is); on a clip with
no nodes the empty mapping is returned. -/
theorem SkeletonAnimation.poseAt_per_node (M : MathLib) (fuel : Nat) (sa : SkeletonAnimation)
    (time : ℚ) (loop : Bool) (hr : sa.Reachable) :
    ((∀ n na, strFind n sa.animations = some (some na) →
        ((na.FrameAt M fuel time loop).value?).isSome = true) →
      ∃ pose, sa.PoseAt M fuel time loop = .ok pose) ∧
    (∀ pose, sa.PoseAt M fuel time loop = .ok pose →
      (∀ n, (strFind n pose).isSome = true ↔ sa.HasNode n = true) ∧
      (∀ n na, strFind n sa.animations = some (some na) →
        strFind n pose = (na.FrameAt M fuel time loop).value? ∧
        ((na.FrameAt M fuel time loop).value?).isSome = true ∧
        (sa.NodePoseAt M fuel n time loop).result = na.FrameAt M fuel time loop ∧
        (sa.NodePoseAt M fuel n time loop).after = sa)) ∧
    (sa.NodeCount = 0 → sa.PoseAt M fuel time loop = .ok []) := by
  have hinv := hr.clipInv
  refine ⟨?_, ?_, ?_⟩
  · intro hall
    apply SkeletonAnimation.poseLoop_returns
    intro e he
    have hf : strFind e.1 sa.animations = some e.2 :=
      (strFind_eq_some_iff hinv.sorted e.1 e.2).mpr he
    cases hv : e.2 with
    | none => exact absurd (hv ▸ hf) (hinv.nonnull e.1)
    | some na => exact ⟨na, rfl, hall e.1 na (hv ▸ hf)⟩
  · intro pose hp
    obtain ⟨h1, h2⟩ := SkeletonAnimation.poseLoop_ok M fuel time loop sa.animations [] pose
      hinv.sorted hp
    refine ⟨?_, ?_⟩
    · intro n
      cases hf : strFind n sa.animations with
      | none =>
        rw [h2 n hf]
        simp [SkeletonAnimation.HasNode, hf, strFind]
      | some v =>
        cases v with
        | none => exact absurd hf (hinv.nonnull n)
        | some na =>
          obtain ⟨e1, e2⟩ := h1 n na hf
          rw [e1]
          simp [SkeletonAnimation.HasNode, hf, e2]
    · intro n na hf
      obtain ⟨e1, e2⟩ := h1 n na hf
      rw [SkeletonAnimation.nodePoseAt_of_find M fuel sa n time loop hf]
      exact ⟨e1, e2, rfl, rfl⟩
  · intro hcount
    have hnil : sa.animations = [] := List.length_eq_zero.mp hcount
    simp [SkeletonAnimation.PoseAt, hnil, SkeletonAnimation.poseLoop]

theorem SkeletonAnimation.Reachable.afterCalls {sa sa1 : SkeletonAnimation}
    (h : sa.Reachable) (calls : List (String × ℚ × Matrix4d))
    (he : sa.addKeyFrames calls = some sa1) : sa1.Reachable := by
  induction calls generalizing sa with
  | nil =>
    simp only [SkeletonAnimation.addKeyFrames, Option.some.injEq] at he
    exact he ▸ h
  | cons c cs ih =>
    cases hc : sa.AddKeyFrame c.1 c.2.1 c.2.2 with
    | none => simp [SkeletonAnimation.addKeyFrames, hc] at he
    | some sa2 =>
      simp only [SkeletonAnimation.addKeyFrames, hc] at he
      exact ih (h.addKeyFrame c.1 c.2.1 c.2.2 hc) he

/-- C15 (the code at the failing input): on a new clip, which has no node
"ghost", the query `NodePoseAt("ghost", 0, false)` leaves a clip in which
`HasNode("ghost")` is true and `NodeCount()` is 1 instead of 0; the entry it
inserted is a null pointer, so that a following `PoseAt` or
`AddKeyFrame("ghost", ...)` dereferences null. -/
theorem C15_nodePoseAt_absent_node_inserts_entry :
    emptyClip.HasNode "ghost" = false ∧
    emptyClip.NodeCount = 0 ∧
    (emptyClip.NodePoseAt sampleMath 0 "ghost" 0 false).after.HasNode "ghost" = true ∧
    (emptyClip.NodePoseAt sampleMath 0 "ghost" 0 false).after.NodeCount = 1 ∧
    (emptyClip.NodePoseAt sampleMath 0 "ghost" 0 false).after.animations = [("ghost", none)] ∧
    (emptyClip.NodePoseAt sampleMath 0 "ghost" 0 false).after.PoseAt sampleMath 0 0 false
      = .pastTheEnd ∧
    (emptyClip.NodePoseAt sampleMath 0 "ghost" 0 false).after.AddKeyFrame "ghost" 0
      Matrix4d.Identity = none := by
  refine ⟨by decide!, by decide!, by decide!, by decide!, by decide!, by decide!, by decide!⟩

/-- C16 (as amended): for every clip and every node name with `HasNode(node)`
false, `NodePoseAt(node, time, loop)` returns the default-constructed, all-zero
matrix on its regular return path, without reporting an error. -/
theorem C16_nodePoseAt_absent_node_returns_default (M : MathLib) (fuel : Nat)
    (sa : SkeletonAnimation) (node : String) (time : ℚ) (loop : Bool)
    (h : sa.HasNode node = false) :
    (sa.NodePoseAt M fuel node time loop).result = .ok Matrix4d.Zero := by
  have hf : strFind node sa.animations = none := by
    simpa [SkeletonAnimation.HasNode] using h
  simp [SkeletonAnimation.NodePoseAt, strIndex, hf]

/-- C16 witness: the node "elbow" is not in the clip with nodes "hip" and
"knee". -/
theorem C16_nodePoseAt_absent_node_returns_default_witness :
    (walkClip.NodePoseAt sampleMath 0 "elbow" 5 true).result = .ok Matrix4d.Zero :=
  C16_nodePoseAt_absent_node_returns_default sampleMath 0 walkClip "elbow" 5 true
    (by decide!)

/-- C16 counterexample: on a new clip `HasNode("ghost")` is false, and
`NodePoseAt("ghost", 0, false)` returns the all-zero matrix as a regular
result; no error outcome is produced. -/
theorem C16_counterexample_silent_default :
    emptyClip.HasNode "ghost" = false ∧
    (emptyClip.NodePoseAt sampleMath 0 "ghost" 0 false).result = .ok Matrix4d.Zero ∧
    (emptyClip.NodePoseAt sampleMath 0 "ghost" 0 false).result
      ≠ .invalidTimeRange Matrix4d.Zero ∧
    (emptyClip.NodePoseAt sampleMath 0 "ghost" 0 false).result ≠ .pastTheEnd := by
  refine ⟨by decide!, by decide!, by decide!, by decide!⟩

/-- C17 (the code at the failing input): with keyframes at 0, 10, 20 and the
query time 12, the upper bound is the keyframe at 20 and its predecessor the
keyframe at 10, so the fraction is `(12 - 10) / (20 - 10) = 1/5`, inside
`[0,1]`; yet `FrameAt(12, false)` reports "Invalid time range" and returns the
default matrix. -/
theorem C17_invalid_time_range_reported_inside_unit_interval :
    upper_bound 12 threeKeys.keyFrames = 2 ∧
    threeKeys.keyFrames[2]? = some (20, posMatrix 20 0 0) ∧
    threeKeys.keyFrames[1]? = some (10, posMatrix 10 0 0) ∧
    ((12 : ℚ) - 10) / (20 - 10) = 1 / 5 ∧
    (0 : ℚ) ≤ 1 / 5 ∧ (1 / 5 : ℚ) ≤ 1 ∧
    threeKeys.FrameAt sampleMath 0 12 false = .invalidTimeRange Matrix4d.Zero := by
  refine ⟨by decide!, by decide!, by decide!, by decide!, by decide!, by decide!, by decide!⟩

theorem NodeAnimation.wrapTime_zero_length (fuel : Nat) (t : ℚ) (ht : 0 < t) :
    NodeAnimation.wrapTime 0 fuel t = none := by
  induction fuel with
  | zero => simp [NodeAnimation.wrapTime, ht]
  | succ f ih => simp [NodeAnimation.wrapTime, ht, ih]

/-- C18 (the code at the failing input): the animation with a single keyframe at
time 0 has one keyframe and `Length()` 0, and `FrameAt(1, true)` does not
return: the wrap-around loop is still running after any number of steps. -/
theorem C18_frameAt_loop_zero_length_never_returns (fuel : Nat) :
    singleKeyAtZero.FrameCount = 1 ∧
    singleKeyAtZero.Length = 0 ∧
    singleKeyAtZero.FrameAt sampleMath fuel 1 true = .noReturn := by
  refine ⟨by decide!, by decide!, ?_⟩
  have hlen : singleKeyAtZero.length = 0 := by decide!
  simp [NodeAnimation.FrameAt, NodeAnimation.adjustTime, hlen,
    NodeAnimation.wrapTime_zero_length fuel 1 one_pos]

/-! ### `TimeAtX` and `PoseAtX` -/

/-- The forward scan of `TimeAtX` stops at the first keyframe whose X is not
below `x`, provided there is one. -/
theorem NodeAnimation.scanX_spec (x : ℚ) :
    ∀ (l : List (ℚ × Matrix4d)), (∃ kv ∈ l, x ≤ kv.2.Translation.X) →
      ∃ i kv, NodeAnimation.scanX x l = some i ∧ l[i]? = some kv ∧
        x ≤ kv.2.Translation.X ∧
        ∀ j kv1, j < i → l[j]? = some kv1 → kv1.2.Translation.X < x := by
  intro l
  induction l with
  | nil => rintro ⟨kv, hkv, _⟩; simp at hkv
  | cons a rest ih =>
    rintro ⟨kv, hkv, hx⟩
    by_cases ha : a.2.Translation.X < x
    · have hrest : ∃ kv ∈ rest, x ≤ kv.2.Translation.X := by
        rcases List.mem_cons.mp hkv with e | hin
        · rw [e] at hx; exact absurd ha (not_lt.mpr hx)
        · exact ⟨kv, hin, hx⟩
      obtain ⟨i, kv2, h1, h2, h3, h4⟩ := ih hrest
      refine ⟨i + 1, kv2, by simp [NodeAnimation.scanX, ha, h1], by simpa using h2, h3, ?_⟩
      intro j kv1 hj hget
      cases j with
      | zero =>
        simp at hget
        rw [← hget]; exact ha
      | succ j1 =>
        exact h4 j1 kv1 (Nat.lt_of_succ_lt_succ hj) (by simpa using hget)
    · refine ⟨0, a, by simp [NodeAnimation.scanX, ha], by simp, not_lt.mp ha, ?_⟩
      intro j kv1 hj _
      exact absurd hj (Nat.not_lt_zero j)

/-- What `TimeAtX(x)` returns when some stored keyframe has X not below `x`. -/
theorem NodeAnimation.timeAtX_spec (M : MathLib) (na : NodeAnimation) (x : ℚ)
    (h : ∃ kv ∈ na.keyFrames, x ≤ kv.2.Translation.X) :
    ∃ i kv, na.keyFrames[i]? = some kv ∧ x ≤ kv.2.Translation.X ∧
      (∀ j kv1, j < i → na.keyFrames[j]? = some kv1 → kv1.2.Translation.X < x) ∧
      ((i = 0 ∨ M.equal kv.2.Translation.X x = true) → na.TimeAtX M x = some kv.1) ∧
      (¬ (i = 0 ∨ M.equal kv.2.Translation.X x = true) →
        ∃ kv1, na.keyFrames[i - 1]? = some kv1 ∧
          kv1.2.Translation.X < x ∧ x < kv.2.Translation.X ∧
          na.TimeAtX M x =
            some (kv1.1 + ((kv.1 - kv1.1) * (x - kv1.2.Translation.X)
              / (kv.2.Translation.X - kv1.2.Translation.X)))) := by
  obtain ⟨i, kv, h1, h2, h3, h4⟩ := NodeAnimation.scanX_spec x na.keyFrames h
  refine ⟨i, kv, h2, h3, h4, ?_, ?_⟩
  · intro hc
    simp only [NodeAnimation.TimeAtX, h1, h2]
    rw [if_pos hc]
  · intro hc
    have hi : i ≠ 0 := fun e => hc (Or.inl e)
    have hlt : i - 1 < na.keyFrames.length := by
      obtain ⟨hlen, _⟩ := List.getElem?_eq_some.mp h2
      omega
    have hprev : na.keyFrames[i - 1]? = some (na.keyFrames.get ⟨i - 1, hlt⟩) :=
      List.getElem?_eq_getElem hlt
    refine ⟨na.keyFrames.get ⟨i - 1, hlt⟩, hprev, ?_, ?_, ?_⟩
    · exact h4 (i - 1) _ (by omega) hprev
    · rcases lt_or_eq_of_le h3 with hlt2 | heq
      · exact hlt2
      · exfalso
        apply hc
        right
        rw [← heq]
        exact M.equal_self x
    · simp only [NodeAnimation.TimeAtX, h1, h2, hprev]
      rw [if_neg hc]

theorem NodeAnimation.timeAtX_returns (M : MathLib) (na : NodeAnimation) (x : ℚ)
    (h : ∃ kv ∈ na.keyFrames, x ≤ kv.2.Translation.X) : ∃ T, na.TimeAtX M x = some T := by
  obtain ⟨i, kv, _, _, _, h4, h5⟩ := NodeAnimation.timeAtX_spec M na x h
  by_cases hc : i = 0 ∨ M.equal kv.2.Translation.X x = true
  · exact ⟨_, h4 hc⟩
  · obtain ⟨kv1, _, _, _, e⟩ := h5 hc
    exact ⟨_, e⟩

/-- C20: for every `NodeAnimation` whose keyframe X values strictly increase
with time and every `x` between the first and the last keyframe's X,
`TimeAtX(x)` returns, and there is a first keyframe (in ascending time order)
whose X is `>= x`: every earlier keyframe has X below `x`, every later one X
above `x`.  When that keyframe is the first one of the store (its X is then
`x` itself) or its X equals `x` within tolerance, the result is its key time;
otherwise, with `(t1, x1)` the keyframe just before it and `(t2, x2)` that
keyframe, `x1 < x < x2` and the result is
`t1 + (t2 - t1) * (x - x1) / (x2 - x1)`. -/
theorem C20_timeAtX_first_reach (M : MathLib) (na : NodeAnimation) (x : ℚ)
    (first last : ℚ × Matrix4d)
    (hmono : na.keyFrames.Pairwise (fun a b => a.2.Translation.X < b.2.Translation.X))
    (hfirst : na.keyFrames.head? = some first) (hlast : na.keyFrames.getLast? = some last)
    (hlo : first.2.Translation.X ≤ x) (hhi : x ≤ last.2.Translation.X) :
    ∃ i kv, na.keyFrames[i]? = some kv ∧ x ≤ kv.2.Translation.X ∧
      (∀ j kv1, j < i → na.keyFrames[j]? = some kv1 → kv1.2.Translation.X < x) ∧
      (∀ j kv1, i < j → na.keyFrames[j]? = some kv1 → x < kv1.2.Translation.X) ∧
      (i = 0 → kv.2.Translation.X = x) ∧
      ((i = 0 ∨ M.equal kv.2.Translation.X x = true) → na.TimeAtX M x = some kv.1) ∧
      (¬ (i = 0 ∨ M.equal kv.2.Translation.X x = true) →
        ∃ kv1, na.keyFrames[i - 1]? = some kv1 ∧
          kv1.2.Translation.X < x ∧ x < kv.2.Translation.X ∧
          na.TimeAtX M x =
            some (kv1.1 + ((kv.1 - kv1.1) * (x - kv1.2.Translation.X)
              / (kv.2.Translation.X - kv1.2.Translation.X)))) := by
  have hex : ∃ kv ∈ na.keyFrames, x ≤ kv.2.Translation.X :=
    ⟨last, List.mem_of_mem_getLast? hlast, hhi⟩
  obtain ⟨i, kv, h1, h2, h3, h4, h5⟩ := NodeAnimation.timeAtX_spec M na x hex
  refine ⟨i, kv, h1, h2, h3, ?_, ?_, h4, h5⟩
  · intro j kv1 hij hget
    obtain ⟨hi, ei⟩ := List.getElem?_eq_some.mp h1
    obtain ⟨hj, ej⟩ := List.getElem?_eq_some.mp hget
    have := (List.pairwise_iff_get.mp hmono) ⟨i, hi⟩ ⟨j, hj⟩ hij
    simp only [List.get_eq_getElem, ei, ej] at this
    exact lt_of_le_of_lt h2 this
  · intro hi0
    subst hi0
    rw [List.head?_eq_getElem?, h1] at hfirst
    obtain rfl : kv = first := Option.some.inj hfirst
    exact le_antisymm hlo h2

/-- C20 witness: keyframes `(t=0, X=0)`, `(t=10, X=10)`, `(t=20, X=20)` and
`x = 15`. -/
theorem C20_timeAtX_first_reach_witness :
    ∃ i kv, threeKeys.keyFrames[i]? = some kv ∧ (15 : ℚ) ≤ kv.2.Translation.X ∧
      (∀ j kv1, j < i → threeKeys.keyFrames[j]? = some kv1 →
        kv1.2.Translation.X < (15 : ℚ)) ∧
      (∀ j kv1, i < j → threeKeys.keyFrames[j]? = some kv1 →
        (15 : ℚ) < kv1.2.Translation.X) ∧
      (i = 0 → kv.2.Translation.X = (15 : ℚ)) ∧
      ((i = 0 ∨ sampleMath.equal kv.2.Translation.X 15 = true) →
        threeKeys.TimeAtX sampleMath 15 = some kv.1) ∧
      (¬ (i = 0 ∨ sampleMath.equal kv.2.Translation.X 15 = true) →
        ∃ kv1, threeKeys.keyFrames[i - 1]? = some kv1 ∧
          kv1.2.Translation.X < (15 : ℚ) ∧ (15 : ℚ) < kv.2.Translation.X ∧
          threeKeys.TimeAtX sampleMath 15 =
            some (kv1.1 + ((kv.1 - kv1.1) * ((15 : ℚ) - kv1.2.Translation.X)
              / (kv.2.Translation.X - kv1.2.Translation.X)))) :=
  C20_timeAtX_first_reach sampleMath threeKeys 15 (0, posMatrix 0 0 0) (20, posMatrix 20 0 0)
    (by decide!) (by decide!) (by decide!) (by decide!) (by decide!)

theorem SkeletonAnimation.wrapX_of_le (lastX x : ℚ) (fuel : Nat) (h : x ≤ lastX) :
    SkeletonAnimation.wrapX lastX fuel x = some x := by
  cases fuel <;> simp [SkeletonAnimation.wrapX, not_lt.mpr h]

/-- On a non-empty store `KeyFrame(0)` is the first and
`KeyFrame(FrameCount() - 1)` the last keyframe. -/
theorem NodeAnimation.keyFramePair_first_last (na : NodeAnimation) {first last : ℚ × Matrix4d}
    (hfirst : na.keyFrames.head? = some first) (hlast : na.keyFrames.getLast? = some last) :
    (na.KeyFramePair 0).trans = first.2 ∧
    (na.KeyFramePair
      (if na.FrameCount = 0 then 4294967295 else na.FrameCount - 1)).trans = last.2 := by
  rw [List.head?_eq_getElem?] at hfirst
  rw [List.getLast?_eq_getElem?] at hlast
  obtain ⟨h0, e0⟩ := List.getElem?_eq_some.mp hfirst
  obtain ⟨h1, e1⟩ := List.getElem?_eq_some.mp hlast
  have hne : na.FrameCount ≠ 0 := by
    show na.keyFrames.length ≠ 0
    omega
  constructor
  · rw [NodeAnimation.keyFramePair_of_lt na 0 h0]
    simp only [List.get_eq_getElem, e0]
  · rw [if_neg hne]
    show (na.KeyFramePair (na.keyFrames.length - 1)).trans = last.2
    rw [NodeAnimation.keyFramePair_of_lt na _ h1]
    simp only [List.get_eq_getElem, e1]

/-- C19: with loop false, `PoseAtX(x, node, false)` on an existing node with at
least one keyframe (first keyframe `first`, last keyframe `last`) equals
`PoseAt(T, false)`, where `T` is what the node's `TimeAtX` returns for `x`
clamped into the X range of the node: raised to the first X if below it, then
lowered to the last X if above it. -/
theorem C19_poseAtX_without_loop (M : MathLib) (fuel : Nat) (sa : SkeletonAnimation) (x : ℚ)
    (node : String) (na : NodeAnimation) (first last : ℚ × Matrix4d)
    (hf : strFind node sa.animations = some (some na))
    (hfirst : na.keyFrames.head? = some first) (hlast : na.keyFrames.getLast? = some last) :
    ∃ T,
      na.TimeAtX M
        (if (if x < first.2.Translation.X then first.2.Translation.X else x)
              > last.2.Translation.X
          then last.2.Translation.X
          else (if x < first.2.Translation.X then first.2.Translation.X else x)) = some T ∧
      sa.PoseAtX M fuel x node false = sa.PoseAt M fuel T false := by
  obtain ⟨hk0, hk1⟩ := NodeAnimation.keyFramePair_first_last na hfirst hlast
  have hle : (if (if x < first.2.Translation.X then first.2.Translation.X else x)
              > last.2.Translation.X
          then last.2.Translation.X
          else (if x < first.2.Translation.X then first.2.Translation.X else x))
      ≤ last.2.Translation.X := by
    split_ifs with h1 h2 h3
    · exact le_refl _
    · exact not_lt.mp h2
    · exact le_refl _
    · exact not_lt.mp h3
  obtain ⟨T, hT⟩ := NodeAnimation.timeAtX_returns M na _
    ⟨last, List.mem_of_mem_getLast? hlast, hle⟩
  refine ⟨T, hT, ?_⟩
  simp only [SkeletonAnimation.PoseAtX, hf, hk0, hk1, Bool.not_false, and_true,
    SkeletonAnimation.wrapX_of_le _ _ fuel hle, hT]

/-- C19 witness: the clip with nodes "hip" (X from 0 to 10) and "knee", queried
at `x = 25` on "hip". -/
theorem C19_poseAtX_without_loop_witness :
    ∃ T,
      (walkClip.nodeOrNew "hip").TimeAtX sampleMath
        (if (if (25 : ℚ) < (posMatrix 0 0 0).Translation.X
              then (posMatrix 0 0 0).Translation.X else 25)
              > (posMatrix 10 0 0).Translation.X
          then (posMatrix 10 0 0).Translation.X
          else (if (25 : ℚ) < (posMatrix 0 0 0).Translation.X
              then (posMatrix 0 0 0).Translation.X else 25)) = some T ∧
      walkClip.PoseAtX sampleMath 0 25 "hip" false = walkClip.PoseAt sampleMath 0 T false :=
  C19_poseAtX_without_loop sampleMath 0 walkClip 25 "hip" (walkClip.nodeOrNew "hip")
    (0, posMatrix 0 0 0) (10, posMatrix 10 0 0) (by decide!) (by decide!) (by decide!)

/-! ### Queries before the first keyframe -/

/-- C21 (as amended): for every reachable `NodeAnimation` with at least one
keyframe, every query time strictly less than the first keyframe's time that
is not within the comparison tolerance of `Length()` (or any such time when
there is a single keyframe), and either loop flag, `FrameAt` returns the first
keyframe's transform unchanged. -/
theorem C21_frameAt_before_first_keyframe (M : MathLib) (fuel : Nat) (na : NodeAnimation)
    (time : ℚ) (loop : Bool) (first : ℚ × Matrix4d) (hr : na.Reachable)
    (hfirst : na.keyFrames.head? = some first) (ht : time < first.1)
    (hfar : M.equal time na.Length = false ∨ na.FrameCount = 1) :
    na.FrameAt M fuel time loop = .ok first.2 := by
  have inv := hr.inv
  obtain ⟨rest, hl⟩ : ∃ rest, na.keyFrames = first :: rest := by
    cases hk : na.keyFrames with
    | nil => rw [hk] at hfirst; simp at hfirst
    | cons a r =>
      rw [hk] at hfirst
      simp only [List.head?_cons, Option.some.injEq] at hfirst
      exact ⟨r, by rw [hfirst]⟩
  have hmem : first ∈ na.keyFrames := by rw [hl]; exact List.mem_cons_self _ _
  have hle : time ≤ na.length := le_of_lt (lt_of_lt_of_le ht (inv.bound first hmem))
  rw [NodeAnimation.frameAt_of_le M fuel na time loop hle]
  unfold NodeAnimation.frameAtAdjusted
  by_cases heq : M.equal time na.length = true
  · rw [if_pos heq]
    have hone : na.FrameCount = 1 := by
      rcases hfar with h | h
      · have h' : M.equal time na.length = false := h
        rw [heq] at h'
        exact Bool.noConfusion h'
      · exact h
    have hrest : rest = [] := by
      have : (first :: rest).length = 1 := by rw [← hl]; exact hone
      simpa using this
    simp [hl, hrest]
  · rw [if_neg heq]
    have hub : upper_bound time (first :: rest) = 0 := by
      simp [upper_bound, ht]
    simp [hl, hub]

/-- C21 witness: the two-keyframe animation (first keyframe at time 0) queried
at time -3 with looping. -/
theorem C21_frameAt_before_first_keyframe_witness :
    twoKeys.FrameAt sampleMath 0 (-3) true = .ok (posMatrix 0 0 0) :=
  C21_frameAt_before_first_keyframe sampleMath 0 twoKeys (-3) true (0, posMatrix 0 0 0)
    (((NodeAnimation.Reachable.new "bone").addKeyFrame 10 (posMatrix 10 0 0)).addKeyFrame 0
      (posMatrix 0 0 0))
    (by decide!) (by decide!) (Or.inl (by decide!))

/-- C21 counterexample: keyframes at 10 (X = 1) and `10 + 10^-7` (X = 2); the
query time `10 - 10^-7` is before the first keyframe, but within tolerance of
`Length()`, and `FrameAt` returns the last keyframe's transform, with either
loop flag, for the tolerance `10^-6` and for `10^-3`. -/
theorem C21_counterexample_near_length :
    nearKeys.keyFrames.head? = some (10, posMatrix 1 0 0) ∧
    (10 - 1 / 10000000 : ℚ) < 10 ∧
    nearKeys.FrameAt sampleMath 0 (10 - 1 / 10000000) false = .ok (posMatrix 2 0 0) ∧
    nearKeys.FrameAt sampleMath 0 (10 - 1 / 10000000) true = .ok (posMatrix 2 0 0) ∧
    nearKeys.FrameAt coarseMath 0 (10 - 1 / 10000000) false = .ok (posMatrix 2 0 0) ∧
    posMatrix 2 0 0 ≠ posMatrix 1 0 0 := by
  refine ⟨by decide!, by decide!, by decide!, by decide!, by decide!, by decide!⟩

/-! ### The wrap loop of `PoseAtX` -/

/-- With a last X that is zero or negative the subtraction does not bring `x`
down: the loop is still running after any number of steps. -/
theorem SkeletonAnimation.wrapX_nonpos (lastX : ℚ) (h : lastX ≤ 0) :
    ∀ (fuel : Nat) (x : ℚ), lastX < x → SkeletonAnimation.wrapX lastX fuel x = none := by
  intro fuel
  induction fuel with
  | zero => intro x hx; simp [SkeletonAnimation.wrapX, hx]
  | succ f ih =>
    intro x hx
    simp only [SkeletonAnimation.wrapX, gt_iff_lt, hx, if_true]
    exact ih (x - lastX) (by linarith)

/-- `PoseAtX` in terms of the argument it computes for `TimeAtX`. -/
theorem SkeletonAnimation.poseAtX_eq (M : MathLib) (fuel : Nat) (sa : SkeletonAnimation)
    (x : ℚ) (node : String) (loop : Bool) {na : NodeAnimation}
    (hf : strFind node sa.animations = some (some na)) :
    sa.PoseAtX M fuel x node loop =
      match SkeletonAnimation.timeAtXArgument fuel na x loop with
      | none => .noReturn
      | some x1 =>
        match na.TimeAtX M x1 with
        | none => .pastTheEnd
        | some time => sa.PoseAt M fuel time loop := by
  simp only [SkeletonAnimation.PoseAtX, hf, SkeletonAnimation.timeAtXArgument]

/-- C22 (the code at the failing inputs): both clips are built by `AddKeyFrame`
calls on a new clip.  The node "hip" of the first clip has one keyframe, with
X = 0, and `PoseAtX(5, "hip", true)` does not return: the
loop `while (x > lastX) x -= lastX` is still running after any number of
steps.  The same happens on the second clip, whose last X is -2, for
`PoseAtX(-1, "hip", true)`. -/
theorem C22_poseAtX_loop_nonpositive_lastX_never_returns (fuel : Nat) :
    (SkeletonAnimation.new "still").addKeyFrames [("hip", 0, posMatrix 0 0 0)]
      = some stillClip ∧
    (SkeletonAnimation.new "back").addKeyFrames
      [("hip", 0, posMatrix (-4) 0 0), ("hip", 10, posMatrix (-2) 0 0)] = some backClip ∧
    stillClip.HasNode "hip" = true ∧
    (stillClip.nodeOrNew "hip").FrameCount = 1 ∧
    stillClip.PoseAtX sampleMath fuel 5 "hip" true = .noReturn ∧
    backClip.HasNode "hip" = true ∧
    (backClip.nodeOrNew "hip").FrameCount = 2 ∧
    backClip.PoseAtX sampleMath fuel (-1) "hip" true = .noReturn := by
  have hs : strFind "hip" stillClip.animations = some (some (stillClip.nodeOrNew "hip")) := by
    decide!
  have hb : strFind "hip" backClip.animations = some (some (backClip.nodeOrNew "hip")) := by
    decide!
  have hsArg : SkeletonAnimation.timeAtXArgument fuel (stillClip.nodeOrNew "hip") 5 true
      = SkeletonAnimation.wrapX 0 fuel 5 := by
    have h1 : ((stillClip.nodeOrNew "hip").KeyFramePair
        (if (stillClip.nodeOrNew "hip").FrameCount = 0 then 4294967295
          else (stillClip.nodeOrNew "hip").FrameCount - 1)).trans.Translation.X = 0 := by
      decide!
    have h2 : ((stillClip.nodeOrNew "hip").KeyFramePair 0).trans.Translation.X = 0 := by
      decide!
    simp only [SkeletonAnimation.timeAtXArgument, h1, h2]
    norm_num
  have hbArg : SkeletonAnimation.timeAtXArgument fuel (backClip.nodeOrNew "hip") (-1) true
      = SkeletonAnimation.wrapX (-2) fuel (-1) := by
    have h1 : ((backClip.nodeOrNew "hip").KeyFramePair
        (if (backClip.nodeOrNew "hip").FrameCount = 0 then 4294967295
          else (backClip.nodeOrNew "hip").FrameCount - 1)).trans.Translation.X = -2 := by
      decide!
    have h2 : ((backClip.nodeOrNew "hip").KeyFramePair 0).trans.Translation.X = -4 := by
      decide!
    simp only [SkeletonAnimation.timeAtXArgument, h1, h2]
    norm_num
  refine ⟨by decide!, by decide!, by decide!, by decide!, ?_, by decide!, by decide!, ?_⟩
  · rw [SkeletonAnimation.poseAtX_eq sampleMath fuel stillClip 5 "hip" true hs, hsArg,
      SkeletonAnimation.wrapX_nonpos 0 (le_refl 0) fuel 5 (by norm_num)]
  · rw [SkeletonAnimation.poseAtX_eq sampleMath fuel backClip (-1) "hip" true hb, hbArg,
      SkeletonAnimation.wrapX_nonpos (-2) (by norm_num) fuel (-1) (by norm_num)]

/-! ### The interpolation fraction of `FrameAt` -/

theorem NodeAnimation.wrapTime_le (L : ℚ) :
    ∀ (fuel : Nat) (t t1 : ℚ), NodeAnimation.wrapTime L fuel t = some t1 → t1 ≤ L := by
  intro fuel
  induction fuel with
  | zero =>
    intro t t1 h
    by_cases ht : t > L
    · simp [NodeAnimation.wrapTime, ht] at h
    · simp only [NodeAnimation.wrapTime, ht, if_false, Option.some.injEq] at h
      rw [← h]; exact not_lt.mp ht
  | succ f ih =>
    intro t t1 h
    by_cases ht : t > L
    · simp only [NodeAnimation.wrapTime, ht, if_true] at h
      exact ih _ _ h
    · simp only [NodeAnimation.wrapTime, ht, if_false, Option.some.injEq] at h
      rw [← h]; exact not_lt.mp ht

/-- The wrap-around loop finishes within `n` steps when the time is at most
`n + 1` periods. -/
theorem NodeAnimation.wrapTime_returns (L : ℚ) :
    ∀ (n fuel : Nat) (t : ℚ), t ≤ ((n : ℚ) + 1) * L → n ≤ fuel →
      ∃ t1, NodeAnimation.wrapTime L fuel t = some t1 := by
  intro n
  induction n with
  | zero =>
    intro fuel t ht _
    have : ¬ t > L := by
      simp only [Nat.cast_zero, zero_add, one_mul] at ht
      exact not_lt.mpr ht
    cases fuel <;> exact ⟨t, by simp [NodeAnimation.wrapTime, this]⟩
  | succ n ih =>
    intro fuel t ht hfuel
    obtain ⟨f, rfl⟩ := Nat.exists_eq_succ_of_ne_zero
      (Nat.pos_iff_ne_zero.mp (Nat.lt_of_lt_of_le (Nat.succ_pos n) hfuel))
    by_cases hgt : t > L
    · simp only [NodeAnimation.wrapTime, hgt, if_true]
      apply ih f (t - L) _ (Nat.le_of_succ_le_succ hfuel)
      push_cast at ht
      linarith
    · exact ⟨t, by simp [NodeAnimation.wrapTime, hgt]⟩

theorem upper_bound_valid {time : ℚ} :
    ∀ (l : List (ℚ × Matrix4d)), (∃ kv ∈ l, time < kv.1) →
      ∃ kv, l[upper_bound time l]? = some kv := by
  intro l
  induction l with
  | nil => rintro ⟨kv, hkv, _⟩; simp at hkv
  | cons a rest ih =>
    rintro ⟨kv, hkv, hlt⟩
    by_cases ha : time < a.1
    · exact ⟨a, by simp [upper_bound, ha]⟩
    · have hrest : ∃ kv ∈ rest, time < kv.1 := by
        rcases List.mem_cons.mp hkv with e | hin
        · exact absurd (e ▸ hlt) ha
        · exact ⟨kv, hin, hlt⟩
      obtain ⟨kv1, h1⟩ := ih hrest
      exact ⟨kv1, by simpa [upper_bound, ha] using h1⟩

/-- When `length` is the time of a stored keyframe, the part of `FrameAt` after
the time adjustment, run at a time not above `length`, reads stored keyframes
only and returns a value. -/
theorem NodeAnimation.frameAtAdjusted_returns (M : MathLib) (na : NodeAnimation) (time : ℚ)
    (hlen : ∃ kv ∈ na.keyFrames, kv.1 = na.length) (hle : time ≤ na.length) :
    ((na.frameAtAdjusted M time).value?).isSome = true := by
  obtain ⟨kvL, hkvL, hkvLlen⟩ := hlen
  unfold NodeAnimation.frameAtAdjusted
  by_cases heq : M.equal time na.length = true
  · rw [if_pos heq]
    obtain ⟨kv, hkv⟩ := getLast?_of_ne_nil (List.ne_nil_of_mem hkvL)
    simp [hkv, NodeAnimation.FrameResult.value?]
  · rw [if_neg heq]
    have hne : time ≠ na.length := by
      intro e
      apply heq
      rw [e]
      exact M.equal_self _
    have hlt : time < kvL.1 := by
      rw [hkvLlen]
      exact lt_of_le_of_ne hle hne
    obtain ⟨kvA, hA⟩ := upper_bound_valid na.keyFrames ⟨kvL, hkvL, hlt⟩
    simp only [hA]
    by_cases hc1 : upper_bound time na.keyFrames = 0 ∨ M.equal kvA.1 time = true
    · rw [if_pos hc1]
      rfl
    · rw [if_neg hc1]
      have hub0 : upper_bound time na.keyFrames ≠ 0 := fun e => hc1 (Or.inl e)
      have hlt1 : upper_bound time na.keyFrames - 1 < na.keyFrames.length := by
        obtain ⟨hlen1, _⟩ := List.getElem?_eq_some.mp hA
        omega
      have hP : na.keyFrames[upper_bound time na.keyFrames - 1]? =
          some (na.keyFrames.get ⟨_, hlt1⟩) := List.getElem?_eq_getElem hlt1
      simp only [hP]
      split_ifs <;> rfl

/-- C24: for every reachable `NodeAnimation` with at least one keyframe whose
largest key time is `>= 0`, `Length()` equals that largest key, and for every
query time and loop flag no run of `FrameAt` reads past the end of the store;
when moreover loop is false or `Length() > 0`, `FrameAt` returns a value (the
last keyframe, the upper bound of the adjusted time or its predecessor being
stored keyframes) once the fuel covers the wrap-around loop. -/
theorem C24_frameAt_lookups_stay_in_store (M : MathLib) (na : NodeAnimation) (_time : ℚ)
    (loop : Bool) (largest : ℚ × Matrix4d) (hr : na.Reachable)
    (hin : largest ∈ na.keyFrames) (hmax : ∀ a ∈ na.keyFrames, a.1 ≤ largest.1)
    (hpos : 0 ≤ largest.1) :
    na.Length = largest.1 ∧
    (∀ fuel, na.FrameAt M fuel _time loop ≠ .pastTheEnd) ∧
    (loop = false ∨ 0 < na.Length →
      ∃ fuel0, ∀ fuel, fuel0 ≤ fuel →
        ((na.FrameAt M fuel _time loop).value?).isSome = true) := by
  have inv := hr.inv
  have hlen : na.length = largest.1 := by
    apply le_antisymm
    · rcases lt_or_eq_of_le inv.nonneg with h | h
      · obtain ⟨kv, hkv, e⟩ := inv.attained h
        rw [← e]
        exact hmax kv hkv
      · rw [← h]; exact hpos
    · exact inv.bound largest hin
  have hstored : ∃ kv ∈ na.keyFrames, kv.1 = na.length := ⟨largest, hin, hlen.symm⟩
  have hadjle : ∀ fuel t, NodeAnimation.adjustTime fuel na _time loop = some t →
      t ≤ na.length := by
    intro fuel t h
    unfold NodeAnimation.adjustTime at h
    split_ifs at h with h1 h2
    · exact NodeAnimation.wrapTime_le _ _ _ _ h
    · rw [← Option.some.inj h]
    · rw [← Option.some.inj h]; exact not_lt.mp h1
  have hval : ∀ fuel t, NodeAnimation.adjustTime fuel na _time loop = some t →
      ((na.FrameAt M fuel _time loop).value?).isSome = true := by
    intro fuel t h
    simp only [NodeAnimation.FrameAt, h]
    exact NodeAnimation.frameAtAdjusted_returns M na t hstored (hadjle fuel t h)
  refine ⟨hlen, ?_, ?_⟩
  · intro fuel
    cases h : NodeAnimation.adjustTime fuel na _time loop with
    | none => simp [NodeAnimation.FrameAt, h]
    | some t =>
      intro e
      have := hval fuel t h
      rw [e] at this
      simp [NodeAnimation.FrameResult.value?] at this
  · intro hloop
    by_cases hgt : _time > na.length
    · rcases hloop with hl | hl
      · refine ⟨0, fun fuel _ => hval fuel na.length ?_⟩
        simp [NodeAnimation.adjustTime, hgt, hl]
      · have hL : 0 < na.length := hl
        obtain ⟨n, hn⟩ := exists_nat_ge (_time / na.length)
        have hbound : _time ≤ ((n : ℚ) + 1) * na.length := by
          have h1 : _time ≤ (n : ℚ) * na.length := (div_le_iff₀ hL).mp hn
          nlinarith
        refine ⟨n, fun fuel hfuel => ?_⟩
        obtain ⟨t1, ht1⟩ := NodeAnimation.wrapTime_returns na.length n fuel _time hbound hfuel
        by_cases hb : loop = true
        · exact hval fuel t1 (by simp [NodeAnimation.adjustTime, hgt, hb, ht1])
        · exact hval fuel na.length (by simp [NodeAnimation.adjustTime, hgt, hb])
    · exact ⟨0, fun fuel _ => hval fuel _time (by simp [NodeAnimation.adjustTime, hgt])⟩

/-- C24 witness: keyframes at 0, 10, 20 queried at time 47 with looping. -/
theorem C24_frameAt_lookups_stay_in_store_witness :
    threeKeys.Length = 20 ∧
    (∀ fuel, threeKeys.FrameAt sampleMath fuel 47 true ≠ .pastTheEnd) ∧
    (true = false ∨ 0 < threeKeys.Length →
      ∃ fuel0, ∀ fuel, fuel0 ≤ fuel →
        ((threeKeys.FrameAt sampleMath fuel 47 true).value?).isSome = true) :=
  C24_frameAt_lookups_stay_in_store sampleMath threeKeys 47 true (20, posMatrix 20 0 0)
    ((NodeAnimation.Reachable.new "bone").addKeyFrames _)
    (by decide!) (by decide!) (by decide!)

/-! ### The scan of `TimeAtX` stays inside the store -/

theorem SkeletonAnimation.wrapX_le (lastX : ℚ) :
    ∀ (fuel : Nat) (x x1 : ℚ), SkeletonAnimation.wrapX lastX fuel x = some x1 → x1 ≤ lastX := by
  intro fuel
  induction fuel with
  | zero =>
    intro x x1 h
    by_cases hx : x > lastX
    · simp [SkeletonAnimation.wrapX, hx] at h
    · simp only [SkeletonAnimation.wrapX, hx, if_false, Option.some.injEq] at h
      rw [← h]; exact not_lt.mp hx
  | succ f ih =>
    intro x x1 h
    by_cases hx : x > lastX
    · simp only [SkeletonAnimation.wrapX, hx, if_true] at h
      exact ih _ _ h
    · simp only [SkeletonAnimation.wrapX, hx, if_false, Option.some.injEq] at h
      rw [← h]; exact not_lt.mp hx

/-- C26: for every clip, every existing node with at least one keyframe (last
keyframe `last`), every `x` and loop flag for which the wrap loop of `PoseAtX`
finishes, the value `x1` handed to the node's `TimeAtX` is `<=` the X of the
last keyframe; so the scan of `TimeAtX` stops at a stored keyframe with X
`>= x1`, `TimeAtX` returns a time `T`, and `PoseAtX` is `PoseAt(T, loop)`. -/
theorem C26_poseAtX_argument_within_last_x (M : MathLib) (fuel : Nat)
    (sa : SkeletonAnimation) (x : ℚ) (node : String) (loop : Bool) (na : NodeAnimation)
    (first last : ℚ × Matrix4d) (x1 : ℚ)
    (hf : strFind node sa.animations = some (some na))
    (hfirst : na.keyFrames.head? = some first) (hlast : na.keyFrames.getLast? = some last)
    (harg : SkeletonAnimation.timeAtXArgument fuel na x loop = some x1) :
    x1 ≤ last.2.Translation.X ∧
    (∃ (i : Nat) (kv : ℚ × Matrix4d), na.keyFrames[i]? = some kv ∧
      x1 ≤ kv.2.Translation.X ∧
      ∀ (j : Nat) (kv1 : ℚ × Matrix4d), j < i → na.keyFrames[j]? = some kv1 →
        kv1.2.Translation.X < x1) ∧
    ∃ T, na.TimeAtX M x1 = some T ∧
      sa.PoseAtX M fuel x node loop = sa.PoseAt M fuel T loop := by
  obtain ⟨_, hk1⟩ := NodeAnimation.keyFramePair_first_last na hfirst hlast
  have hle : x1 ≤ last.2.Translation.X := by
    simp only [SkeletonAnimation.timeAtXArgument, hk1] at harg
    exact SkeletonAnimation.wrapX_le _ _ _ _ harg
  have hex : ∃ kv ∈ na.keyFrames, x1 ≤ kv.2.Translation.X :=
    ⟨last, List.mem_of_mem_getLast? hlast, hle⟩
  obtain ⟨i, kv, h1, h2, h3, _, _⟩ := NodeAnimation.timeAtX_spec M na x1 hex
  obtain ⟨T, hT⟩ := NodeAnimation.timeAtX_returns M na x1 hex
  refine ⟨hle, ⟨i, kv, h1, h2, h3⟩, T, hT, ?_⟩
  rw [SkeletonAnimation.poseAtX_eq M fuel sa x node loop hf, harg]
  simp only [hT]

/-- C26 witness: the clip with nodes "hip" (X from 0 to 10) and "knee", queried
at `x = 25` on "hip" with looping; two subtractions of the last X give 5. -/
theorem C26_poseAtX_argument_within_last_x_witness :
    (5 : ℚ) ≤ (posMatrix 10 0 0).Translation.X ∧
    (∃ (i : Nat) (kv : ℚ × Matrix4d), (walkClip.nodeOrNew "hip").keyFrames[i]? = some kv ∧
      (5 : ℚ) ≤ kv.2.Translation.X ∧
      ∀ (j : Nat) (kv1 : ℚ × Matrix4d), j < i →
        (walkClip.nodeOrNew "hip").keyFrames[j]? = some kv1 →
        kv1.2.Translation.X < (5 : ℚ)) ∧
    ∃ T, (walkClip.nodeOrNew "hip").TimeAtX sampleMath 5 = some T ∧
      walkClip.PoseAtX sampleMath 2 25 "hip" true = walkClip.PoseAt sampleMath 2 T true :=
  C26_poseAtX_argument_within_last_x sampleMath 2 walkClip 25 "hip" true
    (walkClip.nodeOrNew "hip") (0, posMatrix 0 0 0) (10, posMatrix 10 0 0) 5
    (by decide!) (by decide!) (by decide!) (by decide!)

/-- The "Invalid time range" report is issued only after the fraction has been
computed: `NodeAnimation.fractionKeys` marks every run that gets there. -/
theorem NodeAnimation.fractionKeys_of_invalidTimeRange (M : MathLib) (na : NodeAnimation)
    (time : ℚ) (m : Matrix4d) (h : na.frameAtAdjusted M time = .invalidTimeRange m) :
    (na.fractionKeys M time).isSome = true := by
  unfold NodeAnimation.frameAtAdjusted at h
  unfold NodeAnimation.fractionKeys
  by_cases heq : M.equal time na.length = true
  · rw [if_pos heq] at h
    cases hl : na.keyFrames.getLast? <;> simp [hl] at h
  · rw [if_neg heq] at h
    rw [if_neg heq]
    cases hA : na.keyFrames[upper_bound time na.keyFrames]? with
    | none => simp [hA] at h
    | some kvA =>
      simp only [hA] at h ⊢
      by_cases hc1 : upper_bound time na.keyFrames = 0 ∨ M.equal kvA.1 time = true
      · rw [if_pos hc1] at h
        exact NodeAnimation.FrameResult.noConfusion h
      · rw [if_neg hc1] at h
        rw [if_neg hc1]
        cases hP : na.keyFrames[upper_bound time na.keyFrames - 1]? with
        | none => simp [hP] at h
        | some kvPrev =>
          simp only [hP] at h ⊢
          by_cases hc2 : upper_bound time na.keyFrames - 1 = 0 ∨ M.equal kvPrev.1 time = true
          · rw [if_pos hc2] at h
            exact NodeAnimation.FrameResult.noConfusion h
          · rw [if_neg hc2]
            rfl

/-! ### Rounded arithmetic: the wrap-around loop and `Scale` -/

theorem NodeAnimation.frameAtAdjustedWith_id (M : MathLib) (na : NodeAnimation) (time : ℚ) :
    na.frameAtAdjustedWith id M time = na.frameAtAdjusted M time := rfl

theorem NodeAnimation.wrapTimeWith_id (L : ℚ) :
    ∀ (fuel : Nat) (t : ℚ), NodeAnimation.wrapTimeWith id L fuel t
      = NodeAnimation.wrapTime L fuel t := by
  intro fuel
  induction fuel with
  | zero => intro t; rfl
  | succ f ih =>
    intro t
    simp only [NodeAnimation.wrapTimeWith, NodeAnimation.wrapTime, ih, id]

/-- Without rounding the rounded model of `FrameAt` is the exact one. -/
theorem NodeAnimation.frameAtWith_id (M : MathLib) (fuel : Nat) (na : NodeAnimation)
    (time : ℚ) (loop : Bool) :
    na.FrameAtWith id M fuel time loop = na.FrameAt M fuel time loop := by
  simp only [NodeAnimation.FrameAtWith, NodeAnimation.FrameAt, NodeAnimation.adjustTimeWith,
    NodeAnimation.adjustTime, NodeAnimation.wrapTimeWith_id,
    NodeAnimation.frameAtAdjustedWith_id]

/-- Without rounding the rounded model of `Scale` is the exact one. -/
theorem NodeAnimation.scaleWith_id (na : NodeAnimation) (f : ℚ) :
    na.ScaleWith id f = na.Scale f := rfl

/-- The wrap-around loop on `t + k * L` with `0 < t ≤ L` makes `k` subtractions
and stops at `t` when each of the differences is exact. -/
theorem NodeAnimation.wrapTimeWith_exact (r : ℚ → ℚ) (L t : ℚ) (hL : 0 < L) (h0 : 0 < t)
    (htL : t ≤ L) :
    ∀ (k fuel : Nat), k ≤ fuel →
      (∀ j : Nat, j < k → r (t + ((j : ℚ) + 1) * L - L) = t + (j : ℚ) * L) →
      NodeAnimation.wrapTimeWith r L fuel (t + k * L) = some t := by
  intro k
  induction k with
  | zero =>
    intro fuel _ _
    cases fuel <;> simp [NodeAnimation.wrapTimeWith, not_lt.mpr htL]
  | succ k ih =>
    intro fuel hk hexact
    obtain ⟨f, rfl⟩ := Nat.exists_eq_succ_of_ne_zero
      (Nat.pos_iff_ne_zero.mp (Nat.lt_of_lt_of_le (Nat.succ_pos k) hk))
    have hk0 : (0 : ℚ) ≤ (k : ℚ) * L := mul_nonneg (Nat.cast_nonneg k) (le_of_lt hL)
    have hgt : t + ((k + 1 : Nat) : ℚ) * L > L := by
      push_cast
      nlinarith
    have hstep : r (t + ((k + 1 : Nat) : ℚ) * L - L) = t + (k : ℚ) * L := by
      have := hexact k (Nat.lt_succ_self k)
      push_cast
      exact this
    rw [NodeAnimation.wrapTimeWith, if_pos hgt, hstep]
    exact ih f (Nat.le_of_succ_le_succ hk)
      (fun j hj => hexact j (Nat.lt_succ_of_lt hj))

/-- The part of `FrameAt` after the time adjustment, run on a non-empty store at
a time not above `length` that equals `length` within tolerance or with
`length` the time of a stored keyframe, returns a value. -/
theorem NodeAnimation.frameAtAdjustedWith_returns (r : ℚ → ℚ) (M : MathLib)
    (na : NodeAnimation) (time : ℚ) (hne : na.keyFrames ≠ []) (hle : time ≤ na.length)
    (hcase : M.equal time na.length = true ∨ ∃ kv ∈ na.keyFrames, kv.1 = na.length) :
    ((na.frameAtAdjustedWith r M time).value?).isSome = true := by
  unfold NodeAnimation.frameAtAdjustedWith
  by_cases heq : M.equal time na.length = true
  · rw [if_pos heq]
    obtain ⟨kv, hkv⟩ := getLast?_of_ne_nil hne
    simp [hkv, NodeAnimation.FrameResult.value?]
  · rw [if_neg heq]
    obtain ⟨kvL, hkvL, hkvLlen⟩ : ∃ kv ∈ na.keyFrames, kv.1 = na.length := by
      rcases hcase with h | h
      · exact absurd h heq
      · exact h
    have hnel : time ≠ na.length := by
      intro e
      apply heq
      rw [e]
      exact M.equal_self _
    have hlt : time < kvL.1 := by
      rw [hkvLlen]
      exact lt_of_le_of_ne hle hnel
    obtain ⟨kvA, hA⟩ := upper_bound_valid na.keyFrames ⟨kvL, hkvL, hlt⟩
    simp only [hA]
    by_cases hc1 : upper_bound time na.keyFrames = 0 ∨ M.equal kvA.1 time = true
    · rw [if_pos hc1]
      rfl
    · rw [if_neg hc1]
      have hub0 : upper_bound time na.keyFrames ≠ 0 := fun e => hc1 (Or.inl e)
      have hlt1 : upper_bound time na.keyFrames - 1 < na.keyFrames.length := by
        obtain ⟨hlen1, _⟩ := List.getElem?_eq_some.mp hA
        omega
      have hP : na.keyFrames[upper_bound time na.keyFrames - 1]? =
          some (na.keyFrames.get ⟨_, hlt1⟩) := List.getElem?_eq_getElem hlt1
      simp only [hP]
      split_ifs <;> rfl

/-- C5 (as amended): looping is periodic with period `L = Length()` as far as
the double arithmetic is exact: for every reachable `NodeAnimation` with at
least one keyframe, every integer `k ≥ 0` and every `t` with `0 < t ≤ L` (at
`t = 0` only for `k = 0` or `L = 0`), when the query time is `t + k*L` and each
of the `k` differences formed by the wrap-around loop is exact under the
rounding `r`, `FrameAt(t + k*L, true)` returns a transform (given fuel for the
`k` iterations), the one that `FrameAt(t, true)` returns. -/
theorem C5_frameAt_loop_periodic_when_exact (r : ℚ → ℚ) (M : MathLib) (na : NodeAnimation)
    (k fuel fuel1 : Nat) (t : ℚ) (hr : na.Reachable) (hne : 0 < na.FrameCount)
    (h0 : 0 ≤ t) (hL : t ≤ na.Length) (hk : k ≤ fuel)
    (hz : t = 0 → k = 0 ∨ na.Length = 0)
    (hexact : ∀ j : Nat, j < k →
      r (t + ((j : ℚ) + 1) * na.Length - na.Length) = t + (j : ℚ) * na.Length) :
    na.FrameAtWith r M fuel (t + k * na.Length) true = na.FrameAtWith r M fuel1 t true ∧
    ((na.FrameAtWith r M fuel (t + k * na.Length) true).value?).isSome = true := by
  have hL1 : t ≤ na.length := hL
  have inv := hr.inv
  have hnil : na.keyFrames ≠ [] := by
    intro e
    simp [NodeAnimation.FrameCount, e] at hne
  have hadj : NodeAnimation.adjustTimeWith r fuel na (t + k * na.Length) true = some t := by
    show NodeAnimation.adjustTimeWith r fuel na (t + k * na.length) true = some t
    by_cases hk0 : k = 0
    · subst hk0
      simp [NodeAnimation.adjustTimeWith, not_lt.mpr hL1]
    · by_cases hlz : na.length = 0
      · have ht0 : t = 0 := le_antisymm (hlz ▸ hL1) h0
        simp [NodeAnimation.adjustTimeWith, hlz, ht0]
      · have htpos : 0 < t := by
          rcases lt_or_eq_of_le h0 with h | h
          · exact h
          · rcases hz h.symm with h1 | h1
            · exact absurd h1 hk0
            · exact absurd h1 hlz
        have hLpos : 0 < na.length := lt_of_lt_of_le htpos hL1
        have hk1 : (1 : ℚ) ≤ (k : ℚ) := by
          exact_mod_cast Nat.one_le_iff_ne_zero.mpr hk0
        have hgt : na.length < t + (k : ℚ) * na.length := by nlinarith
        simp only [NodeAnimation.adjustTimeWith, gt_iff_lt, hgt, if_true]
        exact NodeAnimation.wrapTimeWith_exact r na.length t hLpos htpos hL1 k fuel hk hexact
  have hadj1 : NodeAnimation.adjustTimeWith r fuel1 na t true = some t := by
    simp [NodeAnimation.adjustTimeWith, not_lt.mpr hL1]
  have hlhs : na.FrameAtWith r M fuel (t + k * na.Length) true
      = na.frameAtAdjustedWith r M t := by
    simp only [NodeAnimation.FrameAtWith, hadj]
  have hrhs : na.FrameAtWith r M fuel1 t true = na.frameAtAdjustedWith r M t := by
    simp only [NodeAnimation.FrameAtWith, hadj1]
  rw [hlhs, hrhs]
  refine ⟨rfl, NodeAnimation.frameAtAdjustedWith_returns r M na t hnil hL1 ?_⟩
  rcases lt_or_eq_of_le inv.nonneg with hpos | hzero
  · exact Or.inr (inv.attained hpos)
  · left
    have ht0 : t = 0 := le_antisymm (hzero ▸ hL1) h0
    rw [ht0, ← hzero]
    exact M.equal_self 0

/-- C5 witness: keyframes at `t=0` and `t=10` under the rounding of doubles;
`FrameAt(15, true)` returns what `FrameAt(5, true)` returns (here `t = 5`,
`k = 1`, `L = 10`, and `15 - 10 = 5` is exact). -/
theorem C5_frameAt_loop_periodic_when_exact_witness :
    twoKeys.FrameAtWith roundDouble sampleMath 1 (5 + (1 : Nat) * twoKeys.Length) true
      = twoKeys.FrameAtWith roundDouble sampleMath 0 5 true ∧
    ((twoKeys.FrameAtWith roundDouble sampleMath 1
      (5 + (1 : Nat) * twoKeys.Length) true).value?).isSome = true :=
  C5_frameAt_loop_periodic_when_exact roundDouble sampleMath twoKeys 1 1 0 5
    (((NodeAnimation.Reachable.new "bone").addKeyFrame 10 (posMatrix 10 0 0)).addKeyFrame 0
      (posMatrix 0 0 0))
    (by decide!) (by norm_num) (by decide!) (le_refl 1) (by norm_num)
    (by
      intro j hj
      have hj0 : j = 0 := by omega
      subst hj0
      decide!)

/-- C5 counterexample.  First, keyframes at `t=0` and `t=10`, so `L = 10`; with
`t = 0` and `k = 1`, `FrameAt(0 + 1*10, true)` is the last keyframe's transform
while `FrameAt(0, true)` is the first keyframe's.  Second, under the rounding
of doubles, keyframes at 0 and 0.1, so `L = 0.1`; with `t = 0.1` and `k = 2`
the query time computed as `0.1 + 2*0.1` is `0.30000000000000004`, the loop
subtracts three times, and `FrameAt` returns the first keyframe's transform
while `FrameAt(0.1, true)` returns the last keyframe's. -/
theorem C5_counterexample_at_zero_and_rounding :
    twoKeys.Length = 10 ∧
    twoKeys.FrameAtWith roundDouble sampleMath 1 (roundDouble (0 + roundDouble (1 * 10))) true
      = .ok (posMatrix 10 0 0) ∧
    twoKeys.FrameAtWith roundDouble sampleMath 1 0 true = .ok (posMatrix 0 0 0) ∧
    posMatrix 10 0 0 ≠ posMatrix 0 0 0 ∧
    tenthKeys.Length = tenth ∧
    roundDouble (1 / 10) = tenth ∧
    roundDouble (tenth + roundDouble (2 * tenth)) = 1351079888211149 / 4503599627370496 ∧
    tenthKeys.FrameAtWith roundDouble sampleMath 3
      (roundDouble (tenth + roundDouble (2 * tenth))) true = .ok (posMatrix 1 0 0) ∧
    tenthKeys.FrameAtWith roundDouble sampleMath 3 tenth true = .ok (posMatrix 2 0 0) ∧
    posMatrix 1 0 0 ≠ posMatrix 2 0 0 := by
  refine ⟨by decide!, by decide!, by decide!, by decide!, by decide!, by decide!, by decide!,
    by decide!, by decide!, by decide!⟩

/-- The rounding on known doubles: 0.1, a sum that rounds up, integers beyond
`2^53` (ties go to the even significand), a negative value. -/
theorem roundDouble_known_values :
    roundDouble (1 / 10) = 3602879701896397 / 36028797018963968 ∧
    roundDouble (tenth * tenth) = 1441151880758559 / 144115188075855872 ∧
    roundDouble 5 = 5 ∧
    roundDouble 9007199254740993 = 9007199254740992 ∧
    roundDouble 9007199254740995 = 9007199254740996 ∧
    roundDouble (-1 / 3) = -6004799503160661 / 18014398509481984 := by
  refine ⟨by decide!, by decide!, by decide!, by decide!, by decide!, by decide!⟩

/-- C14 (the code at the failing inputs): the clip with the nodes "hip"
(keyframes at 0 and 10) and "knee" (one keyframe, at 0) is built by three
`AddKeyFrame` calls on a new clip; `PoseAt(5, true)` on it returns no mapping:
the `FrameAt(5, true)` of "knee", whose `Length()` is 0, is still in its
wrap-around loop after any number of steps.  And on the clip left by
`NodePoseAt("ghost", 0, false)` on a new clip, `PoseAt(0, false)` dereferences
the null pointer stored under "ghost". -/
theorem C14_poseAt_returns_no_mapping (fuel : Nat) :
    (SkeletonAnimation.new "walk").addKeyFrames walkCalls = some walkClip ∧
    walkClip.NodeCount = 2 ∧
    (walkClip.nodeOrNew "knee").Length = 0 ∧
    (walkClip.nodeOrNew "knee").FrameAt sampleMath fuel 5 true = .noReturn ∧
    walkClip.PoseAt sampleMath fuel 5 true = .noReturn ∧
    (emptyClip.NodePoseAt sampleMath 0 "ghost" 0 false).after.PoseAt sampleMath fuel 0 false
      = .pastTheEnd := by
  have hanims : walkClip.animations =
      [("hip", some (walkClip.nodeOrNew "hip")), ("knee", some (walkClip.nodeOrNew "knee"))] := by
    decide!
  have hhip : (walkClip.nodeOrNew "hip").FrameAt sampleMath fuel 5 true
      = .ok (posMatrix 0 0 0) := by
    rw [NodeAnimation.frameAt_of_le sampleMath fuel _ 5 true (by decide!)]
    decide!
  have hklen : (walkClip.nodeOrNew "knee").length = 0 := by decide!
  have hknee : (walkClip.nodeOrNew "knee").FrameAt sampleMath fuel 5 true = .noReturn := by
    simp [NodeAnimation.FrameAt, NodeAnimation.adjustTime, hklen,
      NodeAnimation.wrapTime_zero_length fuel 5 (by norm_num)]
  have hghost : (emptyClip.NodePoseAt sampleMath 0 "ghost" 0 false).after.animations
      = [("ghost", none)] := by decide!
  refine ⟨by decide!, by decide!, by decide!, hknee, ?_, ?_⟩
  · unfold SkeletonAnimation.PoseAt
    rw [hanims]
    simp only [SkeletonAnimation.poseLoop, hhip, hknee]
  · unfold SkeletonAnimation.PoseAt
    rw [hghost]
    simp only [SkeletonAnimation.poseLoop]
